import Mathlib

/-!
Verification of the restore engine of `clickhouse-backup`
(`pkg/backup/restore.go`, `pkg/filesystemhelper/filesystemhelper.go`).

Shallow embedding conventions:
* Go strings are Lean `String`; where character-level surgery is needed
  (`strings.Replace`, regex splitting) we work on `List Char` via `String.data`.
* The ClickHouse driver (`b.ch.*`), which lives outside the given sources, is
  passed in as oracle functions returning `Except String Unit` / values.
* Go maps are association lists with newest-binding-first insertion
  (`mapPut k v m = (k, v) :: m`), so `List.lookup` realises last-write-wins.
* Filesystem paths are component lists (`Path := List String`); the filesystem
  is an association list from paths to entries, and every mutation performed by
  the embedded code appends a binding for a previously absent key.
-/

namespace ClickhouseBackup

/-- Go `map[string]T` assignment `m[k] = v`: newest binding shadows older ones,
so `List.lookup` sees the latest write. -/
def mapPut {α : Type} (m : List (String × α)) (k : String) (v : α) : List (String × α) :=
  (k, v) :: m

theorem lookup_mapPut_self {α : Type} (m : List (String × α)) (k : String) (v : α) :
    List.lookup k (mapPut m k v) = some v := by
  simp [mapPut, List.lookup]

theorem lookup_mapPut_isSome {α : Type} (m : List (String × α)) (a k : String) (v : α)
    (h : (List.lookup k m).isSome = true) :
    (List.lookup k (mapPut m a v)).isSome = true := by
  cases hba : (k == a) with
  | true => simp [mapPut, List.lookup, hba]
  | false => simp [mapPut, List.lookup, hba, h]

@[simp]
theorem isOk_ok {ε α : Type} (a : α) : (Except.ok a : Except ε α).isOk = true := rfl

@[simp]
theorem isOk_error {ε α : Type} (e : ε) : (Except.error e : Except ε α).isOk = false := rfl

/-- Accumulator loop behind `splitOnChar`. -/
def splitOnCharAux (sep : Char) : List Char → List Char → List (List Char)
  | [], acc => [acc.reverse]
  | c :: rest, acc =>
    if c = sep then acc.reverse :: splitOnCharAux sep rest []
    else splitOnCharAux sep rest (c :: acc)

/-- Split a character list on a separator character; mirrors Go
`strings.Split` for a one-character separator (`Split("", sep) = [""]`,
adjacent separators yield empty fields). -/
def splitOnChar (sep : Char) (l : List Char) : List (List Char) :=
  splitOnCharAux sep l []

/-- Go `strings.Split(s, sep)` for a one-character separator. -/
def goSplit (s : String) (sep : Char) : List String :=
  (splitOnChar sep s.data).map String.mk

/-- The byte set `" \t"` used by `strings.Trim(s, " \t")` in the sources. -/
def isSpaceTab (c : Char) : Bool :=
  c = ' ' || c = '\t'

/-- Go `strings.Trim(s, " \t")` on a character list: remove leading and
trailing spaces and tabs (and nothing else). -/
def trimSpaceTabList (l : List Char) : List Char :=
  ((l.dropWhile isSpaceTab).reverse.dropWhile isSpaceTab).reverse

/-- Go `strings.Trim(s, " \t")`. -/
def trimSpaceTab (s : String) : String :=
  String.mk (trimSpaceTabList s.data)

/-!  ## `Restore` phase selection (restore.go lines 47, 118-160)  -/

/-- The sub-operations the `Restore` entry point can run, in order. -/
inductive RestorePhase where
  | rbacConfigsRestart
  | schema
  | data
deriving DecidableEq, Repr

/-- restore.go line 47: `doRestoreData := !schemaOnly || dataOnly`. -/
def doRestoreData (schemaOnly dataOnly : Bool) : Bool :=
  !schemaOnly || dataOnly

/-- Which phases `Restore` executes, translated from restore.go lines 118-160:
`needRestart` is set by the rbac/configs branches (each guarded by
`!isEmbedded`) and short-circuits the rest; otherwise `RestoreSchema` runs when
`schemaOnly || (schemaOnly == dataOnly)` and `RestoreData` runs when
`dataOnly || (schemaOnly == dataOnly)`. -/
def restorePhases (schemaOnly dataOnly rbacOnly configsOnly isEmbedded : Bool) :
    List RestorePhase :=
  let needRestart := (rbacOnly && !isEmbedded) || (configsOnly && !isEmbedded)
  if needRestart then
    [.rbacConfigsRestart]
  else
    (if schemaOnly || (schemaOnly == dataOnly) then [.schema] else []) ++
      (if dataOnly || (schemaOnly == dataOnly) then [.data] else [])


/-!  ## Go `strings.Replace` and the view ATTACH rewrite
(restore.go lines 369-378)  -/

/-- Leftmost occurrence of `pat` in `s` (index of the first position where
`pat` is a prefix of the remaining suffix), the search underlying Go
`strings.Index`/`strings.Replace`/`strings.Contains`. -/
def findSub (s pat : List Char) : Option Nat :=
  if pat.isPrefixOf s then some 0
  else
    match s with
    | [] => none
    | _ :: t => (findSub t pat).map (· + 1)

/-- Go `strings.Contains(s, sub)`. -/
def goContains (s sub : List Char) : Bool :=
  (findSub s sub).isSome

/-- Go `strings.Replace(s, old, new, n)` for `n ≥ 0` and non-empty `old`:
replace the `n` leftmost non-overlapping occurrences of `old` by `new`.
(Go's special case of an empty `old`, which inserts between characters, is
never exercised by the sources; we return `s` unchanged there.) -/
def goReplace (s old new : List Char) : Nat → List Char
  | 0 => s
  | n + 1 =>
    if old.isEmpty then s
    else
      match findSub s old with
      | none => s
      | some i => s.take i ++ new ++ goReplace (s.drop (i + old.length)) old new n

def createMatViewChars : List Char := ("CREATE MATERIALIZED VIEW").data

def attachMatViewChars : List Char := ("ATTACH MATERIALIZED VIEW").data

def createWinViewChars : List Char := ("CREATE WINDOW VIEW").data

def attachWinViewChars : List Char := ("ATTACH WINDOW VIEW").data

def createLiveViewChars : List Char := ("CREATE LIVE VIEW").data

def attachLiveViewChars : List Char := ("ATTACH LIVE VIEW").data

/-- The three `strings.Replace(schema.Query, "CREATE ... VIEW",
"ATTACH ... VIEW", 1)` calls of restore.go lines 369-378, applied in source
order (materialized, then window, then live). -/
def viewAttachRewrite (q : List Char) : List Char :=
  goReplace
    (goReplace
      (goReplace q createMatViewChars attachMatViewChars 1)
      createWinViewChars attachWinViewChars 1)
    createLiveViewChars attachLiveViewChars 1

/-- String-level version of `viewAttachRewrite`, as used on `schema.Query`. -/
def viewAttachRewriteS (q : String) : String :=
  String.mk (viewAttachRewrite q.data)

/-!  ### Lemmas about `findSub` and `goReplace`  -/

theorem findSub_nil (pat : List Char) :
    findSub [] pat = if pat.isPrefixOf [] then some 0 else none := rfl

theorem findSub_cons (c : Char) (t pat : List Char) :
    findSub (c :: t) pat =
      if pat.isPrefixOf (c :: t) then some 0 else (findSub t pat).map (· + 1) := rfl

theorem findSub_of_isPrefixOf (s pat : List Char) (h : pat.isPrefixOf s = true) :
    findSub s pat = some 0 := by
  cases s with
  | nil => rw [findSub_nil, if_pos h]
  | cons c t => rw [findSub_cons, if_pos h]

theorem goReplace_of_findSub_none (s old new : List Char) (n : Nat)
    (h : findSub s old = none) : goReplace s old new n = s := by
  cases n with
  | zero => rfl
  | succ n =>
    simp only [goReplace, h]
    cases old <;> simp

/-- Takes of `x ++ (pat ++ b)` and `x ++ pat.dropLast` agree up to length
`x.length + pat.length - 1`: an occurrence starting strictly before
`x.length` sees the same characters in both lists. -/
theorem take_append_pat_eq (x pat b : List Char) (n : Nat)
    (hn : n ≤ x.length + pat.length - 1) (hx : 1 ≤ x.length) :
    (x ++ (pat ++ b)).take n = (x ++ pat.dropLast).take n := by
  rcases Nat.le_total n x.length with h | h
  · rw [List.take_append_of_le_length h, List.take_append_of_le_length h]
  · have hk : n - x.length ≤ pat.length - 1 := by omega
    have e1 : (x ++ (pat ++ b)).take n = x.take n ++ (pat ++ b).take (n - x.length) :=
      List.take_append_eq_append_take
    have e2 : (x ++ pat.dropLast).take n = x.take n ++ pat.dropLast.take (n - x.length) :=
      List.take_append_eq_append_take
    rw [e1, e2]
    congr 1
    rw [List.take_append_of_le_length (by omega), List.dropLast_eq_take, List.take_take,
      Nat.min_eq_left hk]

/-- If `pat` does not occur in `a ++ pat.dropLast` then the leftmost
occurrence of `pat` in `a ++ pat ++ b` is exactly at index `a.length`. -/
theorem findSub_boundary (pat : List Char) (hpat : 1 ≤ pat.length) :
    ∀ a b : List Char, findSub (a ++ pat.dropLast) pat = none →
      findSub (a ++ pat ++ b) pat = some a.length := by
  intro a
  induction a with
  | nil =>
    intro b _
    simp only [List.nil_append, List.length_nil]
    exact findSub_of_isPrefixOf _ _ (List.isPrefixOf_iff_prefix.2 (List.prefix_append pat b))
  | cons c a ih =>
    intro b hnone
    simp only [List.cons_append] at hnone
    rw [findSub_cons] at hnone
    by_cases hpre : pat.isPrefixOf (c :: (a ++ pat.dropLast)) = true
    · rw [if_pos hpre] at hnone
      cases hnone
    · rw [if_neg hpre] at hnone
      have htail : findSub (a ++ pat.dropLast) pat = none := Option.map_eq_none'.1 hnone
      have hgoalpre : ¬ pat.isPrefixOf (c :: (a ++ (pat ++ b))) = true := by
        intro hc
        have hp2 : pat <+: (c :: a) ++ (pat ++ b) := by
          have := List.isPrefixOf_iff_prefix.1 hc
          simpa using this
        have heq : pat = ((c :: a) ++ (pat ++ b)).take pat.length :=
          List.prefix_iff_eq_take.1 hp2
        have htk : ((c :: a) ++ (pat ++ b)).take pat.length =
            ((c :: a) ++ pat.dropLast).take pat.length := by
          refine take_append_pat_eq (c :: a) pat b pat.length ?_ (by simp)
          simp only [List.length_cons]
          omega
        have hp3 : pat <+: ((c :: a) ++ pat.dropLast) := by
          nth_rewrite 1 [heq]
          rw [htk]
          exact List.take_prefix _ _
        exact hpre (List.isPrefixOf_iff_prefix.2 (by simpa using hp3))
      simp only [List.cons_append, List.append_assoc, List.length_cons]
      rw [findSub_cons, if_neg hgoalpre]
      have ih' := ih b htail
      simp only [List.append_assoc] at ih'
      rw [ih']
      rfl

/-- Replacing at a known first occurrence: if `pat` does not occur inside
`a ++ pat.dropLast`, one-shot `goReplace` on `a ++ pat ++ b` rewrites the
boundary occurrence and copies `b` (later occurrences included) verbatim. -/
theorem goReplace_boundary (pat new : List Char) (hpat : 1 ≤ pat.length)
    (a b : List Char) (hnone : findSub (a ++ pat.dropLast) pat = none) :
    goReplace (a ++ pat ++ b) pat new 1 = a ++ new ++ b := by
  have hfind := findSub_boundary pat hpat a b hnone
  have hne : pat.isEmpty = false := by
    cases pat with
    | nil => simp at hpat
    | cons c t => rfl
  have h1 : (a ++ pat ++ b).take a.length = a := by
    rw [List.append_assoc]
    exact List.take_left a (pat ++ b)
  have h2 : (a ++ pat ++ b).drop (a.length + pat.length) = b := by
    rw [← List.length_append a pat]
    exact List.drop_left _ _
  simp only [goReplace, hne, hfind, h1, h2, Bool.false_eq_true, if_false]

/-!  ## Claim C10  -/

/-- C10: the CREATE-to-ATTACH rewrite for materialized, window and live views
(restore.go lines 369-378, `strings.Replace(..., 1)`) replaces only the first
textual occurrence of the phrase `CREATE MATERIALIZED VIEW` (respectively
`CREATE WINDOW VIEW`, `CREATE LIVE VIEW`) anywhere in the captured CREATE
statement text, leaving any later occurrences of the same phrase (here: inside
`b`, which is reproduced verbatim) unchanged.  The `findSub … = none`
hypotheses say the exhibited occurrence is the first one of its phrase and
that the other two phrases do not occur, isolating each of the three
sequential one-shot replacements. -/
theorem c10_viewAttachRewrite_first_occurrence_only :
    (∀ a b : List Char,
      findSub (a ++ createMatViewChars.dropLast) createMatViewChars = none →
      findSub (a ++ attachMatViewChars ++ b) createWinViewChars = none →
      findSub (a ++ attachMatViewChars ++ b) createLiveViewChars = none →
      viewAttachRewrite (a ++ createMatViewChars ++ b) = a ++ attachMatViewChars ++ b) ∧
    (∀ a b : List Char,
      findSub (a ++ createWinViewChars ++ b) createMatViewChars = none →
      findSub (a ++ createWinViewChars.dropLast) createWinViewChars = none →
      findSub (a ++ attachWinViewChars ++ b) createLiveViewChars = none →
      viewAttachRewrite (a ++ createWinViewChars ++ b) = a ++ attachWinViewChars ++ b) ∧
    (∀ a b : List Char,
      findSub (a ++ createLiveViewChars ++ b) createMatViewChars = none →
      findSub (a ++ createLiveViewChars ++ b) createWinViewChars = none →
      findSub (a ++ createLiveViewChars.dropLast) createLiveViewChars = none →
      viewAttachRewrite (a ++ createLiveViewChars ++ b) = a ++ attachLiveViewChars ++ b) := by
  refine ⟨?_, ?_, ?_⟩
  · intro a b h1 h2 h3
    unfold viewAttachRewrite
    rw [goReplace_boundary _ _ (by decide) a b h1]
    rw [goReplace_of_findSub_none _ _ _ _ h2]
    rw [goReplace_of_findSub_none _ _ _ _ h3]
  · intro a b h1 h2 h3
    unfold viewAttachRewrite
    rw [goReplace_of_findSub_none _ _ _ _ h1]
    rw [goReplace_boundary _ _ (by decide) a b h2]
    rw [goReplace_of_findSub_none _ _ _ _ h3]
  · intro a b h1 h2 h3
    unfold viewAttachRewrite
    rw [goReplace_of_findSub_none _ _ _ _ h1]
    rw [goReplace_of_findSub_none _ _ _ _ h2]
    rw [goReplace_boundary _ _ (by decide) a b h3]

/-- C10 witness: a statement with two `CREATE MATERIALIZED VIEW` occurrences;
only the first is turned into `ATTACH`, the one in the trailing comment is
untouched. -/
theorem c10_witness :
    viewAttachRewrite
        (("X ").data ++ createMatViewChars ++ (" v -- CREATE MATERIALIZED VIEW").data) =
      ("X ").data ++ attachMatViewChars ++ (" v -- CREATE MATERIALIZED VIEW").data :=
  c10_viewAttachRewrite_first_occurrence_only.1 _ _ (by decide) (by decide) (by decide)

/-!  ## Table metadata and the schema restorer
(restore.go lines 353-469)  -/

/-- One data part (`metadata.Part`): only the name matters here. -/
structure Part where
  name : String
deriving DecidableEq, Repr

/-- The slice of `metadata.TableMetadata` used by the restore engine:
database, table, captured CREATE statement text, and the disk-name-to-parts
map (modelled as an association list). -/
structure TableMetadata where
  database : String
  table : String
  query : String
  parts : List (String × List Part)
deriving DecidableEq, Repr

/-- restore.go line 452 error text (`%d` rendered by `toString`). -/
def dropFailMsg (db tbl err : String) (n : Nat) : String :=
  "can\x27t drop table `" ++ db ++ "`.`" ++ tbl ++ "`: " ++ err ++ " after " ++
    toString n ++ " times, please check your schema dependencies"

/-- restore.go line 396 error text. -/
def createFailMsg (db tbl err : String) (n : Nat) : String :=
  "can\x27t create table `" ++ db ++ "`.`" ++ tbl ++ "`: " ++ err ++ " after " ++
    toString n ++ " times, please check your schema dependencies"

/-- restore.go line 364 error text. -/
def createDbFailMsg (db err : String) : String :=
  "can\x27t create database \x27" ++ db ++ "\x27: " ++ err

/-- restore.go lines 423-431: candidate DROP-guess queries for an entry with
empty captured DDL — dictionary and materialized view always, with a plain
table guess prepended only when the entry has parts. -/
def dropCandidates (s : TableMetadata) : List String :=
  let possibleQueries := [
    "CREATE DICTIONARY `" ++ s.database ++ "`.`" ++ s.table ++ "`",
    "CREATE MATERIALIZED VIEW `" ++ s.database ++ "`.`" ++ s.table ++ "`"]
  if 0 < s.parts.length then
    ("CREATE TABLE `" ++ s.database ++ "`.`" ++ s.table ++ "`") :: possibleQueries
  else
    possibleQueries

/-- restore.go lines 432-440: the guess loop.  Every candidate is attempted
(the loop has no break); `dropErr` is overwritten by each attempt, and the
entry query is updated at each succeeding attempt.  The accumulator carries
(query-so-far, last attempt outcome); `drop db tbl q` stands for
`b.ch.DropTable({db,tbl}, q, onCluster, ignoreDependencies, version)`. -/
def dropGuessFold (drop : String → String → String → Except String Unit)
    (db tbl : String) (cands : List String) (q0 : String) :
    String × Except String Unit :=
  cands.foldl (fun acc c =>
    match drop db tbl c with
    | .ok _ => (c, .ok ())
    | .error e => (acc.1, .error e)) (q0, .ok ())

/-- restore.go lines 421-446: one drop attempt for one entry.  Returns the
(possibly query-mutated) slice entry together with the final `dropErr`. -/
def dropAttempt (drop : String → String → String → Except String Unit)
    (s : TableMetadata) : TableMetadata × Except String Unit :=
  if s.query = "" then
    let r := dropGuessFold drop s.database s.table (dropCandidates s) s.query
    ({ s with query := r.1 }, r.2)
  else
    (s, drop s.database s.table s.query)

/-- Result of one pass of the drop loop. -/
inductive DropPassResult where
  | aborted (updated : List TableMetadata) (msg : String)
  | completed (updated notDropped : List TableMetadata) (retries : Nat)
deriving DecidableEq, Repr

/-- One pass of `dropExistsTables` (restore.go lines 421-462): attempt every
pending entry; a failure increments `dropRetries` and either aborts the whole
operation (budget reached, restore.go lines 450-454) or queues the original
entry for the next pass. -/
def dropPassGo (drop : String → String → String → Except String Unit)
    (totalRetries : Nat) :
    List TableMetadata → Nat → List TableMetadata → List TableMetadata →
      DropPassResult
  | [], retries, upd, nd => .completed upd nd retries
  | s :: rest, retries, upd, nd =>
    match dropAttempt drop s with
    | (s2, .ok _) => dropPassGo drop totalRetries rest retries (upd ++ [s2]) nd
    | (s2, .error e) =>
      if totalRetries ≤ retries + 1 then
        .aborted (upd ++ [s2] ++ rest) (dropFailMsg s.database s.table e (retries + 1))
      else
        dropPassGo drop totalRetries rest (retries + 1) (upd ++ [s2]) (nd ++ [s])

/-- The retry loop of `dropExistsTables` (restore.go lines 419-467): while
`dropRetries < totalRetries`, run a pass; stop successfully when a pass leaves
no failures; after the loop falls through, return nil.  `fuel` counts the
passes still allowed; running out yields `none` (the termination theorem shows
`fuel = totalRetries` never runs out). -/
def dropLoop (drop : String → String → String → Except String Unit)
    (totalRetries : Nat) :
    Nat → Nat → List TableMetadata → Option (Except String Unit)
  | fuel, retries, tables =>
    if retries < totalRetries then
      match fuel with
      | 0 => none
      | fuel + 1 =>
        match dropPassGo drop totalRetries tables retries [] [] with
        | .aborted _ msg => some (.error msg)
        | .completed _ nd retries2 =>
          if nd.isEmpty then some (.ok ()) else dropLoop drop totalRetries fuel retries2 nd
    else
      some (.ok ())

/-- `dropExistsTables` (restore.go lines 415-469): `totalRetries` equals the
table count, and so does the number of passes ever needed. -/
def dropExistsTables (drop : String → String → String → Except String Unit)
    (tables : List TableMetadata) : Option (Except String Unit) :=
  dropLoop drop tables.length tables.length 0 tables

/-!  ### The create phase (`restoreSchemaRegular`, restore.go lines 353-413)  -/

/-- restore.go lines 369-386: the textual rewrites applied to a captured
CREATE statement before `CreateTable` — the three one-shot view ATTACH
replacements, then (only when `RestoreSchemaOnCluster` is empty and the query
mentions both `{uuid}` and `Replicated`) the UUID substitution, applied only
when an explicit `UUID` is present (otherwise the code merely warns).
`uuidRe` stands for `UUIDWithReplicatedMergeTreeRE.ReplaceAllString`, the Go
regexp-engine call, external to this model. -/
def rewriteSchemaQuery (uuidRe : String → String) (onCluster : String)
    (q : String) : String :=
  let q1 := viewAttachRewriteS q
  if onCluster = "" && goContains q1.data ("{uuid}").data &&
      goContains q1.data ("Replicated").data then
    if goContains q1.data ("UUID").data then uuidRe q1 else q1
  else
    q1

/-- Result of one pass of the create loop. -/
inductive SchemaPassResult where
  | failed (msg : String)
  | completed (notRestored : List TableMetadata) (retries : Nat) (created : List String)
deriving DecidableEq, Repr

/-- One pass of `restoreSchemaRegular` (restore.go lines 360-406): for each
pending entry, create its database once per database name (an error here
returns immediately, restore.go line 364), rewrite the query, and attempt
`CreateTable`; a failure increments `restoreRetries` and either aborts
(budget reached) or queues the rewritten entry for the next pass. -/
def restorePassGo (createDb : String → Except String Unit)
    (createTable : String → String → String → Except String Unit)
    (uuidRe : String → String) (onCluster : String) (totalRetries : Nat) :
    List TableMetadata → Nat → List String → List TableMetadata →
      SchemaPassResult
  | [], retries, created, nd => .completed nd retries created
  | s :: rest, retries, created, nd =>
    match (if created.contains s.database then Except.ok () else createDb s.database :
        Except String Unit) with
    | .error e => .failed (createDbFailMsg s.database e)
    | .ok _ =>
      let created2 := if created.contains s.database then created else created ++ [s.database]
      let q := rewriteSchemaQuery uuidRe onCluster s.query
      match createTable s.database s.table q with
      | .ok _ => restorePassGo createDb createTable uuidRe onCluster totalRetries
          rest retries created2 nd
      | .error e =>
        if totalRetries ≤ retries + 1 then
          .failed (createFailMsg s.database s.table e (retries + 1))
        else
          restorePassGo createDb createTable uuidRe onCluster totalRetries
            rest (retries + 1) created2 (nd ++ [{ s with query := q }])

/-- The retry loop of `restoreSchemaRegular` (restore.go lines 358-411), with
the same fuel discipline as `dropLoop`; the `isDatabaseCreated` set persists
across passes. -/
def restoreLoop (createDb : String → Except String Unit)
    (createTable : String → String → String → Except String Unit)
    (uuidRe : String → String) (onCluster : String) (totalRetries : Nat) :
    Nat → Nat → List String → List TableMetadata → Option (Except String Unit)
  | fuel, retries, created, tables =>
    if retries < totalRetries then
      match fuel with
      | 0 => none
      | fuel + 1 =>
        match restorePassGo createDb createTable uuidRe onCluster totalRetries
            tables retries created [] with
        | .failed msg => some (.error msg)
        | .completed nd retries2 created2 =>
          if nd.isEmpty then some (.ok ())
          else restoreLoop createDb createTable uuidRe onCluster totalRetries
            fuel retries2 created2 nd
    else
      some (.ok ())

/-- `restoreSchemaRegular` (restore.go lines 353-413). -/
def restoreSchemaRegular (createDb : String → Except String Unit)
    (createTable : String → String → String → Except String Unit)
    (uuidRe : String → String) (onCluster : String)
    (tables : List TableMetadata) : Option (Except String Unit) :=
  restoreLoop createDb createTable uuidRe onCluster tables.length
    tables.length 0 [] tables


/-!  ### Retry accounting for the drop loop  -/

theorem dropLoop_zero (drop : String → String → String → Except String Unit)
    (T retries : Nat) (tables : List TableMetadata) :
    dropLoop drop T 0 retries tables =
      if retries < T then none else some (.ok ()) := rfl

theorem dropLoop_succ (drop : String → String → String → Except String Unit)
    (T fuel retries : Nat) (tables : List TableMetadata) :
    dropLoop drop T (fuel + 1) retries tables =
      if retries < T then
        match dropPassGo drop T tables retries [] [] with
        | .aborted _ msg => some (.error msg)
        | .completed _ nd retries2 =>
          if nd.isEmpty then some (.ok ()) else dropLoop drop T fuel retries2 nd
      else some (.ok ()) := rfl

/-- A completed drop pass increments `dropRetries` exactly once per queued
failure, and never decreases it. -/
theorem dropPassGo_completed_retries
    (drop : String → String → String → Except String Unit) (T : Nat) :
    ∀ (pending : List TableMetadata) (retries : Nat)
      (upd nd upd2 nd2 : List TableMetadata) (retries2 : Nat),
      dropPassGo drop T pending retries upd nd = .completed upd2 nd2 retries2 →
      retries2 + nd.length = retries + nd2.length ∧ retries ≤ retries2 := by
  intro pending
  induction pending with
  | nil =>
    intro retries upd nd upd2 nd2 retries2 h
    simp only [dropPassGo] at h
    cases h
    exact ⟨rfl, Nat.le_refl _⟩
  | cons s rest ih =>
    intro retries upd nd upd2 nd2 retries2 h
    simp only [dropPassGo] at h
    rcases hda : dropAttempt drop s with ⟨s2, r⟩
    cases r with
    | ok a =>
      simp only [hda] at h
      exact ih retries (upd ++ [s2]) nd upd2 nd2 retries2 h
    | error e =>
      simp only [hda] at h
      by_cases hb : T ≤ retries + 1
      · rw [if_pos hb] at h
        cases h
      · rw [if_neg hb] at h
        have hrec := ih (retries + 1) (upd ++ [s2]) (nd ++ [s]) upd2 nd2 retries2 h
        rcases hrec with ⟨h1, h2⟩
        constructor
        · simp only [List.length_append, List.length_cons, List.length_nil] at h1
          omega
        · omega

/-- A completed drop pass entered below the retry budget stays below it. -/
theorem dropPassGo_completed_lt
    (drop : String → String → String → Except String Unit) (T : Nat) :
    ∀ (pending : List TableMetadata) (retries : Nat)
      (upd nd upd2 nd2 : List TableMetadata) (retries2 : Nat),
      retries < T →
      dropPassGo drop T pending retries upd nd = .completed upd2 nd2 retries2 →
      retries2 < T := by
  intro pending
  induction pending with
  | nil =>
    intro retries upd nd upd2 nd2 retries2 hlt h
    simp only [dropPassGo] at h
    cases h
    exact hlt
  | cons s rest ih =>
    intro retries upd nd upd2 nd2 retries2 hlt h
    simp only [dropPassGo] at h
    rcases hda : dropAttempt drop s with ⟨s2, r⟩
    cases r with
    | ok a =>
      simp only [hda] at h
      exact ih retries (upd ++ [s2]) nd upd2 nd2 retries2 hlt h
    | error e =>
      simp only [hda] at h
      by_cases hb : T ≤ retries + 1
      · rw [if_pos hb] at h
        cases h
      · rw [if_neg hb] at h
        exact ih (retries + 1) (upd ++ [s2]) (nd ++ [s]) upd2 nd2 retries2 (by omega) h

/-- An aborted drop pass (entered below the budget) reports the budget-shaped
error: the last failing table, the underlying error and the retry count,
where the count equals the full budget `T`. -/
theorem dropPassGo_aborted_msg
    (drop : String → String → String → Except String Unit) (T : Nat) :
    ∀ (pending : List TableMetadata) (retries : Nat)
      (upd nd upd2 : List TableMetadata) (msg : String),
      retries < T →
      dropPassGo drop T pending retries upd nd = .aborted upd2 msg →
      ∃ db tbl e, msg = dropFailMsg db tbl e T := by
  intro pending
  induction pending with
  | nil =>
    intro retries upd nd upd2 msg hlt h
    simp only [dropPassGo] at h
    cases h
  | cons s rest ih =>
    intro retries upd nd upd2 msg hlt h
    simp only [dropPassGo] at h
    rcases hda : dropAttempt drop s with ⟨s2, r⟩
    cases r with
    | ok a =>
      simp only [hda] at h
      exact ih retries (upd ++ [s2]) nd upd2 msg hlt h
    | error e =>
      simp only [hda] at h
      by_cases hb : T ≤ retries + 1
      · rw [if_pos hb] at h
        cases h
        refine ⟨s.database, s.table, e, ?_⟩
        have : retries + 1 = T := by omega
        rw [this]
      · rw [if_neg hb] at h
        exact ih (retries + 1) (upd ++ [s2]) (nd ++ [s]) upd2 msg (by omega) h

/-- The drop loop never runs out of fuel when `T ≤ retries + fuel`. -/
theorem dropLoop_isSome (drop : String → String → String → Except String Unit)
    (T : Nat) :
    ∀ (fuel retries : Nat) (tables : List TableMetadata),
      T ≤ retries + fuel →
      (dropLoop drop T fuel retries tables).isSome = true := by
  intro fuel
  induction fuel with
  | zero =>
    intro retries tables hle
    rw [dropLoop_zero]
    rw [if_neg (by omega)]
    rfl
  | succ fuel ih =>
    intro retries tables hle
    rw [dropLoop_succ]
    by_cases hlt : retries < T
    · rw [if_pos hlt]
      cases hpass : dropPassGo drop T tables retries [] [] with
      | aborted upd2 msg => rfl
      | completed upd2 nd retries2 =>
        by_cases hnd : nd.isEmpty
        · simp [hnd]
        · simp only [hnd, if_false, Bool.false_eq_true]
          have hacct := dropPassGo_completed_retries drop T tables retries [] [] upd2 nd
            retries2 hpass
          have hlen : 1 ≤ nd.length := by
            cases nd with
            | nil => simp at hnd
            | cons x xs => simp
          refine ih retries2 nd ?_
          simp only [List.length_nil] at hacct
          omega
    · rw [if_neg hlt]
      rfl

/-- Any error produced by the drop loop has the budget shape with count `T`. -/
theorem dropLoop_error_shape (drop : String → String → String → Except String Unit)
    (T : Nat) :
    ∀ (fuel retries : Nat) (tables : List TableMetadata) (m : String),
      dropLoop drop T fuel retries tables = some (.error m) →
      retries < T →
      ∃ db tbl e, m = dropFailMsg db tbl e T := by
  intro fuel
  induction fuel with
  | zero =>
    intro retries tables m h hlt
    rw [dropLoop_zero, if_pos hlt] at h
    cases h
  | succ fuel ih =>
    intro retries tables m h hlt
    rw [dropLoop_succ, if_pos hlt] at h
    cases hpass : dropPassGo drop T tables retries [] [] with
    | aborted upd2 msg =>
      rw [hpass] at h
      cases h
      exact dropPassGo_aborted_msg drop T tables retries [] [] upd2 m hlt hpass
    | completed upd2 nd retries2 =>
      rw [hpass] at h
      by_cases hnd : nd.isEmpty
      · simp only [hnd, if_true] at h
        cases h
      · simp only [hnd, if_false, Bool.false_eq_true] at h
        exact ih retries2 nd m h
          (dropPassGo_completed_lt drop T tables retries [] [] upd2 nd retries2 hlt hpass)


/-!  ### Retry accounting for the create loop  -/

theorem restoreLoop_zero (createDb : String → Except String Unit)
    (createTable : String → String → String → Except String Unit)
    (uuidRe : String → String) (onCluster : String) (T retries : Nat)
    (created : List String) (tables : List TableMetadata) :
    restoreLoop createDb createTable uuidRe onCluster T 0 retries created tables =
      if retries < T then none else some (.ok ()) := rfl

theorem restoreLoop_succ (createDb : String → Except String Unit)
    (createTable : String → String → String → Except String Unit)
    (uuidRe : String → String) (onCluster : String) (T fuel retries : Nat)
    (created : List String) (tables : List TableMetadata) :
    restoreLoop createDb createTable uuidRe onCluster T (fuel + 1) retries created tables =
      if retries < T then
        match restorePassGo createDb createTable uuidRe onCluster T
            tables retries created [] with
        | .failed msg => some (.error msg)
        | .completed nd retries2 created2 =>
          if nd.isEmpty then some (.ok ())
          else restoreLoop createDb createTable uuidRe onCluster T fuel retries2 created2 nd
      else some (.ok ()) := rfl

/-- A completed create pass increments `restoreRetries` exactly once per
queued failure, and never decreases it. -/
theorem restorePassGo_completed_retries (createDb : String → Except String Unit)
    (createTable : String → String → String → Except String Unit)
    (uuidRe : String → String) (onCluster : String) (T : Nat) :
    ∀ (pending : List TableMetadata) (retries : Nat) (created : List String)
      (nd nd2 : List TableMetadata) (retries2 : Nat) (created2 : List String),
      restorePassGo createDb createTable uuidRe onCluster T pending retries created nd =
        .completed nd2 retries2 created2 →
      retries2 + nd.length = retries + nd2.length ∧ retries ≤ retries2 := by
  intro pending
  induction pending with
  | nil =>
    intro retries created nd nd2 retries2 created2 h
    simp only [restorePassGo] at h
    cases h
    exact ⟨rfl, Nat.le_refl _⟩
  | cons s rest ih =>
    intro retries created nd nd2 retries2 created2 h
    simp only [restorePassGo] at h
    cases hdb : (if created.contains s.database then Except.ok () else createDb s.database :
        Except String Unit) with
    | error e =>
      rw [hdb] at h
      cases h
    | ok a =>
      rw [hdb] at h
      cases hct : createTable s.database s.table
          (rewriteSchemaQuery uuidRe onCluster s.query) with
      | ok b =>
        simp only [hct] at h
        exact ih retries _ nd nd2 retries2 created2 h
      | error e =>
        simp only [hct] at h
        by_cases hb : T ≤ retries + 1
        · rw [if_pos hb] at h
          cases h
        · rw [if_neg hb] at h
          have hrec := ih (retries + 1) _
            (nd ++ [{ s with query := rewriteSchemaQuery uuidRe onCluster s.query }])
            nd2 retries2 created2 h
          rcases hrec with ⟨h1, h2⟩
          constructor
          · simp only [List.length_append, List.length_cons, List.length_nil] at h1
            omega
          · omega

/-- A completed create pass entered below the retry budget stays below it. -/
theorem restorePassGo_completed_lt (createDb : String → Except String Unit)
    (createTable : String → String → String → Except String Unit)
    (uuidRe : String → String) (onCluster : String) (T : Nat) :
    ∀ (pending : List TableMetadata) (retries : Nat) (created : List String)
      (nd nd2 : List TableMetadata) (retries2 : Nat) (created2 : List String),
      retries < T →
      restorePassGo createDb createTable uuidRe onCluster T pending retries created nd =
        .completed nd2 retries2 created2 →
      retries2 < T := by
  intro pending
  induction pending with
  | nil =>
    intro retries created nd nd2 retries2 created2 hlt h
    simp only [restorePassGo] at h
    cases h
    exact hlt
  | cons s rest ih =>
    intro retries created nd nd2 retries2 created2 hlt h
    simp only [restorePassGo] at h
    cases hdb : (if created.contains s.database then Except.ok () else createDb s.database :
        Except String Unit) with
    | error e =>
      rw [hdb] at h
      cases h
    | ok a =>
      rw [hdb] at h
      cases hct : createTable s.database s.table
          (rewriteSchemaQuery uuidRe onCluster s.query) with
      | ok b =>
        simp only [hct] at h
        exact ih retries _ nd nd2 retries2 created2 hlt h
      | error e =>
        simp only [hct] at h
        by_cases hb : T ≤ retries + 1
        · rw [if_pos hb] at h
          cases h
        · rw [if_neg hb] at h
          exact ih (retries + 1) _
            (nd ++ [{ s with query := rewriteSchemaQuery uuidRe onCluster s.query }])
            nd2 retries2 created2 (by omega) h

/-- A failed create pass (entered below the budget) reports either the
budget-shaped table error whose count equals the full budget `T`, or the
immediately-returned database-creation error. -/
theorem restorePassGo_failed_msg (createDb : String → Except String Unit)
    (createTable : String → String → String → Except String Unit)
    (uuidRe : String → String) (onCluster : String) (T : Nat) :
    ∀ (pending : List TableMetadata) (retries : Nat) (created : List String)
      (nd : List TableMetadata) (msg : String),
      retries < T →
      restorePassGo createDb createTable uuidRe onCluster T pending retries created nd =
        .failed msg →
      (∃ db tbl e, msg = createFailMsg db tbl e T) ∨ (∃ db e, msg = createDbFailMsg db e) := by
  intro pending
  induction pending with
  | nil =>
    intro retries created nd msg hlt h
    simp only [restorePassGo] at h
    cases h
  | cons s rest ih =>
    intro retries created nd msg hlt h
    simp only [restorePassGo] at h
    cases hdb : (if created.contains s.database then Except.ok () else createDb s.database :
        Except String Unit) with
    | error e =>
      rw [hdb] at h
      cases h
      exact Or.inr ⟨s.database, e, rfl⟩
    | ok a =>
      rw [hdb] at h
      cases hct : createTable s.database s.table
          (rewriteSchemaQuery uuidRe onCluster s.query) with
      | ok b =>
        simp only [hct] at h
        exact ih retries _ nd msg hlt h
      | error e =>
        simp only [hct] at h
        by_cases hb : T ≤ retries + 1
        · rw [if_pos hb] at h
          cases h
          refine Or.inl ⟨s.database, s.table, e, ?_⟩
          have : retries + 1 = T := by omega
          rw [this]
        · rw [if_neg hb] at h
          exact ih (retries + 1) _
            (nd ++ [{ s with query := rewriteSchemaQuery uuidRe onCluster s.query }])
            msg (by omega) h

/-- The create loop never runs out of fuel when `T ≤ retries + fuel`. -/
theorem restoreLoop_isSome (createDb : String → Except String Unit)
    (createTable : String → String → String → Except String Unit)
    (uuidRe : String → String) (onCluster : String) (T : Nat) :
    ∀ (fuel retries : Nat) (created : List String) (tables : List TableMetadata),
      T ≤ retries + fuel →
      (restoreLoop createDb createTable uuidRe onCluster T fuel retries created
        tables).isSome = true := by
  intro fuel
  induction fuel with
  | zero =>
    intro retries created tables hle
    rw [restoreLoop_zero, if_neg (by omega)]
    rfl
  | succ fuel ih =>
    intro retries created tables hle
    rw [restoreLoop_succ]
    by_cases hlt : retries < T
    · rw [if_pos hlt]
      cases hpass : restorePassGo createDb createTable uuidRe onCluster T
          tables retries created [] with
      | failed msg => rfl
      | completed nd retries2 created2 =>
        by_cases hnd : nd.isEmpty
        · simp [hnd]
        · simp only [hnd, if_false, Bool.false_eq_true]
          have hacct := restorePassGo_completed_retries createDb createTable uuidRe
            onCluster T tables retries created [] nd retries2 created2 hpass
          have hlen : 1 ≤ nd.length := by
            cases nd with
            | nil => simp at hnd
            | cons x xs => simp
          refine ih retries2 created2 nd ?_
          simp only [List.length_nil] at hacct
          omega
    · rw [if_neg hlt]
      rfl

/-- Any error produced by the create loop has one of the two source shapes
(table-retry budget with count `T`, or database creation). -/
theorem restoreLoop_error_shape (createDb : String → Except String Unit)
    (createTable : String → String → String → Except String Unit)
    (uuidRe : String → String) (onCluster : String) (T : Nat) :
    ∀ (fuel retries : Nat) (created : List String) (tables : List TableMetadata)
      (m : String),
      restoreLoop createDb createTable uuidRe onCluster T fuel retries created tables =
        some (.error m) →
      retries < T →
      (∃ db tbl e, m = createFailMsg db tbl e T) ∨ (∃ db e, m = createDbFailMsg db e) := by
  intro fuel
  induction fuel with
  | zero =>
    intro retries created tables m h hlt
    rw [restoreLoop_zero, if_pos hlt] at h
    cases h
  | succ fuel ih =>
    intro retries created tables m h hlt
    rw [restoreLoop_succ, if_pos hlt] at h
    cases hpass : restorePassGo createDb createTable uuidRe onCluster T
        tables retries created [] with
    | failed msg =>
      rw [hpass] at h
      cases h
      exact restorePassGo_failed_msg createDb createTable uuidRe onCluster T
        tables retries created [] m hlt hpass
    | completed nd retries2 created2 =>
      rw [hpass] at h
      by_cases hnd : nd.isEmpty
      · simp only [hnd, if_true] at h
        cases h
      · simp only [hnd, if_false, Bool.false_eq_true] at h
        exact ih retries2 created2 nd m h
          (restorePassGo_completed_lt createDb createTable uuidRe onCluster T
            tables retries created [] nd retries2 created2 hlt hpass)


/-!  ## Claim C1  -/

/-- C1: for every table list of length `N` given to the schema drop phase
(`dropExistsTables`) or create phase (`restoreSchemaRegular`), the retry loop
terminates within at most `N` passes over the work queue — the loops are run
with pass-fuel `N` and never return `none` — and any error they produce is
the budget-exhaustion error naming the last failing table, the last
underlying error and the retry count (equal to `N`), or, for the create
phase only, the immediately-fatal database-creation error; there is no
infinite looping. -/
theorem c1_schema_retry_budget
    (drop : String → String → String → Except String Unit)
    (createDb : String → Except String Unit)
    (createTable : String → String → String → Except String Unit)
    (uuidRe : String → String) (onCluster : String)
    (tables : List TableMetadata) :
    ((dropExistsTables drop tables).isSome = true ∧
      ∀ m, dropExistsTables drop tables = some (.error m) →
        ∃ db tbl e, m = dropFailMsg db tbl e tables.length) ∧
    ((restoreSchemaRegular createDb createTable uuidRe onCluster tables).isSome = true ∧
      ∀ m, restoreSchemaRegular createDb createTable uuidRe onCluster tables =
          some (.error m) →
        (∃ db tbl e, m = createFailMsg db tbl e tables.length) ∨
        (∃ db e, m = createDbFailMsg db e)) := by
  constructor
  · constructor
    · exact dropLoop_isSome drop tables.length tables.length 0 tables (by omega)
    · intro m h
      rcases Nat.eq_zero_or_pos tables.length with hz | hpos
      · unfold dropExistsTables at h
        rw [hz, dropLoop_zero, if_neg (by omega)] at h
        cases h
      · exact dropLoop_error_shape drop tables.length tables.length 0 tables m h hpos
  · constructor
    · exact restoreLoop_isSome createDb createTable uuidRe onCluster tables.length
        tables.length 0 [] tables (by omega)
    · intro m h
      rcases Nat.eq_zero_or_pos tables.length with hz | hpos
      · unfold restoreSchemaRegular at h
        rw [hz, restoreLoop_zero, if_neg (by omega)] at h
        cases h
      · exact restoreLoop_error_shape createDb createTable uuidRe onCluster
          tables.length tables.length 0 [] tables m h hpos

/-- An oracle whose every drop/create attempt fails, and a one-entry list:
used to exercise the budget-exhaustion branch concretely. -/
def alwaysFailOracle : String → String → String → Except String Unit :=
  fun _ _ _ => .error "boom"

def sampleTable : TableMetadata :=
  { database := "d", table := "t", query := "CREATE TABLE `d`.`t` (x Int32)", parts := [] }

/-- C1 witness: with one table whose every attempt fails, both loops
terminate (no fuel exhaustion) and the drop loop reports the budget error
with retry count 1 = table count. -/
theorem c1_witness :
    (dropExistsTables alwaysFailOracle [sampleTable]).isSome = true ∧
    (∃ db tbl e, dropFailMsg "d" "t" "boom" 1 = dropFailMsg db tbl e [sampleTable].length) := by
  have h := c1_schema_retry_budget alwaysFailOracle (fun _ => .ok ()) alwaysFailOracle
    id "" [sampleTable]
  exact ⟨h.1.1, h.1.2 (dropFailMsg "d" "t" "boom" 1) rfl⟩

/-!  ## Claim C2  -/

/-- The guess fold, characterised: the query component ends at the LAST
succeeding candidate (default: the initial query), and the outcome component
is the outcome of the LAST attempt made, regardless of earlier successes. -/
theorem dropGuessFold_characterisation
    (drop : String → String → String → Except String Unit) (db tbl : String) :
    ∀ (cands : List String) (q : String) (r : Except String Unit),
      cands.foldl (fun acc c =>
        match drop db tbl c with
        | .ok _ => (c, Except.ok ())
        | .error e => (acc.1, Except.error e)) (q, r) =
      ((cands.filter (fun c => (drop db tbl c).isOk)).getLastD q,
        cands.foldl (fun _ c => drop db tbl c) r) := by
  intro cands
  induction cands with
  | nil => intro q r; rfl
  | cons c cs ih =>
    intro q r
    rw [List.foldl_cons]
    rw [List.foldl_cons]
    cases hdc : drop db tbl c with
    | ok a =>
      cases a
      rw [List.filter_cons_of_pos (by rw [hdc]; rfl)]
      simp only [hdc]
      rw [ih c (Except.ok ())]
      rw [List.getLastD_cons]
    | error e =>
      rw [List.filter_cons_of_neg (by rw [hdc]; simp)]
      simp only [hdc]
      rw [ih q (Except.error e)]

/-- Folding "keep the last call" over a list is the call on the last element
(or the initial value for an empty list). -/
theorem foldl_last_call (g : String → Except String Unit) :
    ∀ (l : List String) (r : Except String Unit),
      l.foldl (fun _ c => g c) r = (l.getLast?).elim r g := by
  intro l
  induction l with
  | nil => intro r; rfl
  | cons c cs ih =>
    intro r
    cases cs with
    | nil => rfl
    | cons d ds =>
      rw [List.foldl_cons, ih (g c), List.getLast?_cons_cons]
      cases hgl : (d :: ds).getLast? with
      | none =>
        exfalso
        have hnil : (d :: ds : List String) = [] := by
          simpa using hgl
        cases hnil
      | some x => rfl

/-- C2 counterexample: an entry with parts and empty DDL whose first guessed
candidate (`CREATE TABLE ...`) succeeds against the oracle while the later
guesses fail.  The claim says the drop phase "accepts the first candidate
that succeeds", so the drop should succeed — but the guess loop has no break,
the final candidate's failure is kept as `dropErr`, and with one table the
whole `dropExistsTables` aborts with the budget error. -/
def c2GuessTable : TableMetadata :=
  { database := "d", table := "t", query := "", parts := [("default", [{ name := "p" }])] }

def c2GuessOracle : String → String → String → Except String Unit :=
  fun _ _ q =>
    if ("CREATE TABLE").data.isPrefixOf q.data then .ok () else .error "guess failed"

theorem c2_counterexample :
    (c2GuessOracle "d" "t" "CREATE TABLE `d`.`t`").isOk = true ∧
    dropExistsTables c2GuessOracle [c2GuessTable] =
      some (.error (dropFailMsg "d" "t" "guess failed" 1)) := by
  exact ⟨rfl, rfl⟩

/-- C2 (amended): for every table entry whose captured DDL text is empty, the
drop phase synthesizes candidate DROP statements in the order table (present
only when the entry has parts), dictionary, materialized view; it attempts
EVERY candidate (the loop has no break), stores the LAST successful
candidate's query back onto the table entry, and the entry counts as dropped
only if the FINAL candidate's attempt succeeds. -/
theorem c2_dropAttempt_amended
    (drop : String → String → String → Except String Unit)
    (s : TableMetadata) (h : s.query = "") :
    dropAttempt drop s =
      ({ s with query :=
          ((dropCandidates s).filter
            (fun c => (drop s.database s.table c).isOk)).getLastD "" },
        ((dropCandidates s).getLast?).elim (Except.ok ()) (drop s.database s.table)) ∧
    dropCandidates s =
      (if 0 < s.parts.length
        then ["CREATE TABLE `" ++ s.database ++ "`.`" ++ s.table ++ "`"] else []) ++
      ["CREATE DICTIONARY `" ++ s.database ++ "`.`" ++ s.table ++ "`",
        "CREATE MATERIALIZED VIEW `" ++ s.database ++ "`.`" ++ s.table ++ "`"] := by
  constructor
  · unfold dropAttempt
    rw [if_pos h]
    unfold dropGuessFold
    rw [h]
    rw [dropGuessFold_characterisation drop s.database s.table (dropCandidates s) "" (.ok ())]
    rw [foldl_last_call (drop s.database s.table) (dropCandidates s) (.ok ())]
  · unfold dropCandidates
    split <;> rfl

def c2WitnessTable : TableMetadata :=
  { database := "d", table := "t", query := "", parts := [] }

def c2WitnessOracle : String → String → String → Except String Unit :=
  fun _ _ q =>
    if ("CREATE DICTIONARY").data.isPrefixOf q.data then .ok () else .error "e"

/-- C2 witness: entry without parts; the dictionary guess succeeds, the final
(materialized view) guess fails, so the stored query is the dictionary guess
and the attempt outcome is the final failure. -/
theorem c2_amended_witness :
    c2WitnessTable.query = "" ∧
    dropAttempt c2WitnessOracle c2WitnessTable =
      ({ c2WitnessTable with query :=
          ((dropCandidates c2WitnessTable).filter
            (fun c => (c2WitnessOracle c2WitnessTable.database c2WitnessTable.table
              c).isOk)).getLastD "" },
        ((dropCandidates c2WitnessTable).getLast?).elim (Except.ok ())
          (c2WitnessOracle c2WitnessTable.database c2WitnessTable.table)) := by
  exact ⟨rfl, (c2_dropAttempt_amended c2WitnessOracle c2WitnessTable rfl).1⟩


/-!  ## Partition resolver (`CreatePartitionsToBackupMap`,
filesystemhelper.go lines 277-323)  -/

/-- The RE2 `\\s` character class (`[\\t\\n\\f\\r ]`) used by
`partitionTupleRE = \\)\\s*,\\s*\\(`. -/
def isRegexpSpace (c : Char) : Bool :=
  c = ' ' || c = '\t' || c = '\n' || c = '\x0c' || c = '\r'

/-- Try to match the tuple separator regex `\\)\\s*,\\s*\\(` at the head of the
character list; on a match, return the remainder after the separator.  The
`\\s*` runs are maximal, which is the unique match since `,` and `(` are not
space characters. -/
def tupleSepMatch (l : List Char) : Option (List Char) :=
  match l with
  | [] => none
  | c :: rest =>
    if c = ')' then
      match rest.dropWhile isRegexpSpace with
      | [] => none
      | c2 :: r2 =>
        if c2 = ',' then
          match r2.dropWhile isRegexpSpace with
          | [] => none
          | c3 :: r3 => if c3 = '(' then some r3 else none
        else none
    else none

theorem length_dropWhile_le (p : Char → Bool) (l : List Char) :
    (l.dropWhile p).length ≤ l.length := by
  induction l with
  | nil => simp
  | cons c t ih =>
    rw [List.dropWhile_cons]
    split
    · simp only [List.length_cons]
      omega
    · simp

theorem tupleSepMatch_length :
    ∀ (l r : List Char), tupleSepMatch l = some r → r.length < l.length := by
  intro l r h
  cases l with
  | nil => simp [tupleSepMatch] at h
  | cons c rest =>
    simp only [tupleSepMatch] at h
    by_cases hc : c = ')'
    · rw [if_pos hc] at h
      cases h1 : rest.dropWhile isRegexpSpace with
      | nil => simp [h1] at h
      | cons c2 r2 =>
        simp only [h1] at h
        have hr2 : r2.length < rest.length + 1 := by
          have := length_dropWhile_le isRegexpSpace rest
          rw [h1] at this
          simp only [List.length_cons] at this
          omega
        by_cases hc2 : c2 = ','
        · rw [if_pos hc2] at h
          cases h2 : r2.dropWhile isRegexpSpace with
          | nil => simp [h2] at h
          | cons c3 r3 =>
            simp only [h2] at h
            have hr3 : r3.length < r2.length + 1 := by
              have := length_dropWhile_le isRegexpSpace r2
              rw [h2] at this
              simp only [List.length_cons] at this
              omega
            by_cases hc3 : c3 = '('
            · rw [if_pos hc3] at h
              simp only [Option.some.injEq] at h
              subst h
              simp only [List.length_cons]
              omega
            · rw [if_neg hc3] at h
              cases h
        · rw [if_neg hc2] at h
          cases h
    · rw [if_neg hc] at h
      cases h

/-- `partitionTupleRE.Split`: cut the character list at every separator
match, scanning left to right.  The fuel argument (first) only bounds the
recursion: every step consumes at least one character
(`tupleSepMatch_length`), so fuel `l.length` never runs out and the fuel-out
equation is unreachable from `tupleSplit`. -/
def tupleSplitAux : Nat → List Char → List Char → List (List Char)
  | _, [], acc => [acc.reverse]
  | 0, c :: rest, acc => [acc.reverse ++ c :: rest]
  | fuel + 1, c :: rest, acc =>
    match tupleSepMatch (c :: rest) with
    | some r => acc.reverse :: tupleSplitAux fuel r []
    | none => tupleSplitAux fuel rest (c :: acc)

def tupleSplit (l : List Char) : List (List Char) :=
  tupleSplitAux l.length l []

/-- Go `strings.TrimPrefix` on character lists. -/
def goTrimPrefixChars (s pre : List Char) : List Char :=
  if pre.isPrefixOf s then s.drop pre.length else s

/-- Go `strings.TrimSuffix` on character lists. -/
def goTrimSuffixChars (s suf : List Char) : List Char :=
  if suf.isSuffixOf s then s.take (s.length - suf.length) else s

/-- filesystemhelper.go line 291: strip the outer parentheses from a
tuple-form partitions argument (already trimmed of spaces/tabs). -/
def tupleInner (arg : String) : List Char :=
  goTrimSuffixChars (goTrimPrefixChars (trimSpaceTab arg).data ("(").data) (")").data

/-- `partitionsMap[x] = struct{}{}`: the map is modelled as its key list in
insertion order (Go map iteration order is unspecified; insertion order is
our canonical enumeration). -/
def setInsert (m : List String) (x : String) : List String :=
  if m.contains x then m else m ++ [x]

/-- filesystemhelper.go lines 293-299 / 301-307: evaluate one tuple against a
list of tables, aborting on the first `GetPartitionId` error and skipping
empty partition ids.  Each table is the triple (database, table name, create
query); `gp` stands for `partition.GetPartitionId`. -/
def evalTupleOnTables (gp : String → String → String → String → Except String String)
    (tuple : String) :
    List (String × String × String) → List String → Option (List String)
  | [], m => some m
  | (db, tbl, q) :: rest, m =>
    match gp db tbl q tuple with
    | .error _ => none
    | .ok pid =>
      evalTupleOnTables gp tuple rest (if pid = "" then m else setInsert m pid)

/-- filesystemhelper.go lines 292-309: all tuples of one argument, first
against the live tables, then against the captured metadata tables. -/
def evalTuples (gp : String → String → String → String → Except String String)
    (chT metaT : List (String × String × String)) :
    List (List Char) → List String → Option (List String)
  | [], m => some m
  | tup :: rest, m =>
    match evalTupleOnTables gp (String.mk tup) chT m with
    | none => none
    | some m1 =>
      match evalTupleOnTables gp (String.mk tup) metaT m1 with
      | none => none
      | some m2 => evalTuples gp chT metaT rest m2

/-- filesystemhelper.go lines 287-315: the loop over the partitions
arguments.  A tuple-form argument (leading parenthesis after space/tab trim)
is split on `\\)\\s*,\\s*\\(` and evaluated; a literal argument is split on
commas, each item trimmed of spaces and tabs and inserted verbatim. -/
def processPartitionArgs (gp : String → String → String → String → Except String String)
    (chT metaT : List (String × String × String)) :
    List String → List String → Option (List String)
  | [], m => some m
  | arg :: rest, m =>
    if ("(").data.isPrefixOf (trimSpaceTab arg).data then
      match evalTuples gp chT metaT (tupleSplit (tupleInner arg)) m with
      | none => none
      | some m2 => processPartitionArgs gp chT metaT rest m2
    else
      processPartitionArgs gp chT metaT rest
        ((goSplit (trimSpaceTab arg) ',').foldl (fun m it => setInsert m (trimSpaceTab it)) m)

/-- `CreatePartitionsToBackupMap` (filesystemhelper.go lines 279-323): empty
input and any evaluation failure both produce the empty identifier set paired
with the ORIGINAL argument list; on success the deduplicated set is returned
together with its enumeration as the normalized list. -/
def CreatePartitionsToBackupMap
    (gp : String → String → String → String → Except String String)
    (chT metaT : List (String × String × String))
    (partitions : List String) : List String × List String :=
  if partitions.isEmpty then ([], partitions)
  else
    match processPartitionArgs gp chT metaT partitions [] with
    | none => ([], partitions)
    | some m => (m, m)


/-!  ### Abort-on-failure lemmas for the partition resolver  -/

theorem evalTupleOnTables_none
    (gp : String → String → String → String → Except String String) (tuple : String) :
    ∀ (tables : List (String × String × String)) (m : List String),
      (∃ t ∈ tables, (gp t.1 t.2.1 t.2.2 tuple).isOk = false) →
      evalTupleOnTables gp tuple tables m = none := by
  intro tables
  induction tables with
  | nil =>
    intro m h
    rcases h with ⟨t, ht, _⟩
    cases ht
  | cons t rest ih =>
    intro m h
    obtain ⟨t0, ht0, hfail⟩ := h
    rcases t with ⟨db, tbl, q⟩
    simp only [evalTupleOnTables]
    cases hg : gp db tbl q tuple with
    | error e => rfl
    | ok pid =>
      rcases List.mem_cons.mp ht0 with rfl | hmem
      · rw [hg] at hfail
        simp at hfail
      · exact ih _ ⟨t0, hmem, hfail⟩

theorem evalTuples_none
    (gp : String → String → String → String → Except String String)
    (chT metaT : List (String × String × String)) :
    ∀ (tuples : List (List Char)) (m : List String),
      (∃ tup ∈ tuples, ∃ t ∈ chT ++ metaT,
        (gp t.1 t.2.1 t.2.2 (String.mk tup)).isOk = false) →
      evalTuples gp chT metaT tuples m = none := by
  intro tuples
  induction tuples with
  | nil =>
    intro m h
    rcases h with ⟨tup, htup, _⟩
    cases htup
  | cons tup rest ih =>
    intro m h
    obtain ⟨tup0, htup0, t0, ht0, hfail⟩ := h
    simp only [evalTuples]
    rcases List.mem_cons.mp htup0 with rfl | hmem
    · rcases List.mem_append.mp ht0 with hch | hmeta
      · rw [evalTupleOnTables_none gp (String.mk tup0) chT m ⟨t0, hch, hfail⟩]
      · split
        · rfl
        · rename_i m1 heq
          rw [evalTupleOnTables_none gp (String.mk tup0) metaT m1 ⟨t0, hmeta, hfail⟩]
    · split
      · rfl
      · rename_i m1 heq
        split
        · rfl
        · rename_i m2 heq2
          exact ih m2 ⟨tup0, hmem, t0, ht0, hfail⟩

theorem processPartitionArgs_none
    (gp : String → String → String → String → Except String String)
    (chT metaT : List (String × String × String)) :
    ∀ (args : List String) (m : List String),
      (∃ arg ∈ args, ("(").data.isPrefixOf (trimSpaceTab arg).data = true ∧
        ∃ tup ∈ tupleSplit (tupleInner arg), ∃ t ∈ chT ++ metaT,
          (gp t.1 t.2.1 t.2.2 (String.mk tup)).isOk = false) →
      processPartitionArgs gp chT metaT args m = none := by
  intro args
  induction args with
  | nil =>
    intro m h
    rcases h with ⟨a, ha, _⟩
    cases ha
  | cons arg rest ih =>
    intro m h
    obtain ⟨arg0, harg0, hpar, tup0, htup0, t0, ht0, hfail⟩ := h
    simp only [processPartitionArgs]
    rcases List.mem_cons.mp harg0 with rfl | hmem
    · rw [if_pos hpar]
      rw [evalTuples_none gp chT metaT _ m ⟨tup0, htup0, t0, ht0, hfail⟩]
    · by_cases hp : ("(").data.isPrefixOf (trimSpaceTab arg).data = true
      · rw [if_pos hp]
        cases hev : evalTuples gp chT metaT (tupleSplit (tupleInner arg)) m with
        | none => rfl
        | some m2 => exact ih m2 ⟨arg0, hmem, hpar, tup0, htup0, t0, ht0, hfail⟩
      · rw [if_neg hp]
        exact ih _ ⟨arg0, hmem, hpar, tup0, htup0, t0, ht0, hfail⟩

/-!  ## Claim C4  -/

/-- C4: for every partitions input containing a parenthesized tuple-form
entry, if evaluating any of its tuples against the partitioning expression of
any live or captured table fails, partition resolution aborts the whole
computation and returns the empty identifier set (paired with the original,
unresolved argument list) — a partially resolved set is never returned. -/
theorem c4_tuple_evaluation_failure_aborts
    (gp : String → String → String → String → Except String String)
    (chT metaT : List (String × String × String)) (partitions : List String)
    (h : ∃ arg ∈ partitions, ("(").data.isPrefixOf (trimSpaceTab arg).data = true ∧
      ∃ tup ∈ tupleSplit (tupleInner arg), ∃ t ∈ chT ++ metaT,
        (gp t.1 t.2.1 t.2.2 (String.mk tup)).isOk = false) :
    CreatePartitionsToBackupMap gp chT metaT partitions = ([], partitions) := by
  obtain ⟨arg0, harg0, hrest⟩ := h
  unfold CreatePartitionsToBackupMap
  have hne : partitions.isEmpty = false := by
    cases partitions with
    | nil => cases harg0
    | cons a r => rfl
  rw [hne]
  simp only [Bool.false_eq_true, if_false]
  rw [processPartitionArgs_none gp chT metaT partitions [] ⟨arg0, harg0, hrest⟩]

/-- C4 witness: one tuple-form argument, a failing `GetPartitionId`, result is
the empty set with the original arguments. -/
theorem c4_witness :
    CreatePartitionsToBackupMap (fun _ _ _ _ => Except.error "bad")
      [("d", "t", "q")] [] ["(1),(2)"] = ([], ["(1),(2)"]) := by
  refine c4_tuple_evaluation_failure_aborts _ _ _ _ ?_
  exact ⟨"(1),(2)", by decide, by decide, ("1").data, by decide, ("d", "t", "q"),
    by decide, rfl⟩


/-!  ## Claim C7  -/

theorem mem_setInsert (m : List String) (x y : String) :
    y ∈ setInsert m x ↔ y ∈ m ∨ y = x := by
  unfold setInsert
  split
  · rename_i hc
    have hx : x ∈ m := by simpa using hc
    constructor
    · exact Or.inl
    · rintro (h | rfl)
      · exact h
      · exact hx
  · simp

theorem nodup_setInsert (m : List String) (x : String) (h : m.Nodup) :
    (setInsert m x).Nodup := by
  unfold setInsert
  split
  · exact h
  · rename_i hc
    have hx : x ∉ m := by simpa using hc
    simp [List.nodup_append, h, hx]

theorem literalFold_mem (items : List String) :
    ∀ (m : List String) (x : String),
      x ∈ items.foldl (fun m it => setInsert m (trimSpaceTab it)) m ↔
        x ∈ m ∨ ∃ it ∈ items, trimSpaceTab it = x := by
  induction items with
  | nil =>
    intro m x
    simp
  | cons it rest ih =>
    intro m x
    rw [List.foldl_cons, ih, mem_setInsert]
    constructor
    · rintro ((h | rfl) | ⟨it2, hit2, rfl⟩)
      · exact Or.inl h
      · exact Or.inr ⟨it, by simp, rfl⟩
      · exact Or.inr ⟨it2, by simp [hit2], rfl⟩
    · rintro (h | ⟨it2, hit2, rfl⟩)
      · exact Or.inl (Or.inl h)
      · rcases List.mem_cons.mp hit2 with rfl | hmem
        · exact Or.inl (Or.inr rfl)
        · exact Or.inr ⟨it2, hmem, rfl⟩

theorem literalFold_nodup (items : List String) :
    ∀ (m : List String), m.Nodup →
      (items.foldl (fun m it => setInsert m (trimSpaceTab it)) m).Nodup := by
  induction items with
  | nil => intro m h; exact h
  | cons it rest ih =>
    intro m h
    rw [List.foldl_cons]
    exact ih _ (nodup_setInsert m (trimSpaceTab it) h)

/-- Literal-only argument lists never abort, and the accumulated set is
exactly the trimmed comma-split items (dedup preserved). -/
theorem processPartitionArgs_literal
    (gp : String → String → String → String → Except String String)
    (chT metaT : List (String × String × String)) :
    ∀ (args : List String) (m : List String),
      (∀ arg ∈ args, ("(").data.isPrefixOf (trimSpaceTab arg).data = false) →
      ∃ m2, processPartitionArgs gp chT metaT args m = some m2 ∧
        (∀ x, x ∈ m2 ↔ x ∈ m ∨ ∃ arg ∈ args, ∃ it ∈ goSplit (trimSpaceTab arg) ',',
          trimSpaceTab it = x) ∧
        (m.Nodup → m2.Nodup) := by
  intro args
  induction args with
  | nil =>
    intro m hlit
    exact ⟨m, rfl, by simp, id⟩
  | cons arg rest ih =>
    intro m hlit
    have hp : ("(").data.isPrefixOf (trimSpaceTab arg).data = false := hlit arg (by simp)
    obtain ⟨m2, hm2, hmem, hnd⟩ := ih
      ((goSplit (trimSpaceTab arg) ',').foldl (fun m it => setInsert m (trimSpaceTab it)) m)
      (fun a ha => hlit a (by simp [ha]))
    refine ⟨m2, ?_, ?_, ?_⟩
    · simp only [processPartitionArgs]
      rw [if_neg (by simp [hp])]
      exact hm2
    · intro x
      rw [hmem x, literalFold_mem]
      constructor
      · rintro ((h | ⟨it2, hit2, rfl⟩) | ⟨arg2, harg2, it2, hit2, rfl⟩)
        · exact Or.inl h
        · exact Or.inr ⟨arg, by simp, it2, hit2, rfl⟩
        · exact Or.inr ⟨arg2, by simp [harg2], it2, hit2, rfl⟩
      · rintro (h | ⟨arg2, harg2, it2, hit2, rfl⟩)
        · exact Or.inl (Or.inl h)
        · rcases List.mem_cons.mp harg2 with rfl | hmem2
          · exact Or.inl (Or.inr ⟨it2, hit2, rfl⟩)
          · exact Or.inr ⟨arg2, hmem2, it2, hit2, rfl⟩
    · intro hm
      exact hnd (literalFold_nodup _ m hm)

/-- C7 counterexample: the claim says each comma-split item is
whitespace-trimmed, but only spaces and tabs are trimmed
(`strings.Trim(item, " \t")`): for the literal input `"a\n,b"` the newline
survives, so the resolved set contains `"a\n"` and not `"a"`. -/
theorem c7_counterexample :
    (CreatePartitionsToBackupMap (fun _ _ _ _ => Except.ok "") [] [] ["a\n,b"]).1 =
      ["a\n", "b"] ∧
    "a" ∉ (CreatePartitionsToBackupMap (fun _ _ _ _ => Except.ok "") [] [] ["a\n,b"]).1 := by
  exact ⟨rfl, by decide⟩

/-- C7 (amended): for every literal (non-parenthesized, after space/tab trim)
partition filter list, resolution splits each argument on commas, trims
spaces and tabs (not all whitespace) from each item, uses the identifiers
verbatim, and deduplicates the resulting identifier set; the normalized list
equals the set enumeration, and the input `"20230101,20230102"` yields
exactly the identifier set `{20230101, 20230102}`. -/
theorem c7_literal_resolution_amended
    (gp : String → String → String → String → Except String String)
    (chT metaT : List (String × String × String)) (partitions : List String)
    (hlit : ∀ arg ∈ partitions, ("(").data.isPrefixOf (trimSpaceTab arg).data = false) :
    (∀ x, x ∈ (CreatePartitionsToBackupMap gp chT metaT partitions).1 ↔
      ∃ arg ∈ partitions, ∃ it ∈ goSplit (trimSpaceTab arg) ',', trimSpaceTab it = x) ∧
    (CreatePartitionsToBackupMap gp chT metaT partitions).1.Nodup ∧
    (CreatePartitionsToBackupMap gp chT metaT partitions).2 =
      (CreatePartitionsToBackupMap gp chT metaT partitions).1 ∧
    CreatePartitionsToBackupMap gp chT metaT ["20230101,20230102"] =
      (["20230101", "20230102"], ["20230101", "20230102"]) := by
  cases partitions with
  | nil =>
    refine ⟨?_, ?_, rfl, rfl⟩
    · intro x
      simp [CreatePartitionsToBackupMap]
    · simp [CreatePartitionsToBackupMap]
  | cons a rest =>
    obtain ⟨m2, hm2, hmem, hnd⟩ :=
      processPartitionArgs_literal gp chT metaT (a :: rest) [] hlit
    have hres : CreatePartitionsToBackupMap gp chT metaT (a :: rest) = (m2, m2) := by
      unfold CreatePartitionsToBackupMap
      simp only [List.isEmpty_cons, Bool.false_eq_true, if_false]
      rw [hm2]
    refine ⟨?_, ?_, ?_, rfl⟩
    · intro x
      rw [hres]
      simpa using hmem x
    · rw [hres]
      exact hnd List.nodup_nil
    · rw [hres]

/-- C7 witness: overlapping literal arguments `["p1, p2 ", "p1"]` — `"p2"` is
a member of the resolved set and the set is duplicate-free. -/
theorem c7_amended_witness :
    "p2" ∈ (CreatePartitionsToBackupMap (fun _ _ _ _ => Except.ok "") [] []
      ["p1, p2 ", "p1"]).1 ∧
    (CreatePartitionsToBackupMap (fun _ _ _ _ => Except.ok "") [] []
      ["p1, p2 ", "p1"]).1.Nodup := by
  have h := c7_literal_resolution_amended (fun _ _ _ _ => Except.ok "") [] []
    ["p1, p2 ", "p1"] (by decide)
  exact ⟨(h.1 "p2").2 ⟨"p1, p2 ", by decide, " p2", by decide, by decide⟩, h.2.1⟩


/-!  ## Data restore (`restoreDataRegular`, restore.go lines 527-630)  -/

deriving instance DecidableEq for Except

/-- Filesystem paths are modelled as component lists. -/
abbrev Path := List String

/-- `clickhouse.Disk`: name, filesystem path, storage type. -/
structure Disk where
  name : String
  path : Path
  type : String
deriving DecidableEq, Repr

/-- The slice of `clickhouse.Table` used here: database, name, create query
and the table data paths. -/
structure ChTable where
  database : String
  name : String
  createTableQuery : String
  dataPaths : List Path
deriving DecidableEq, Repr

/-- Warnings logged by `restoreDataRegular` (restore.go line 554). -/
inductive RdrWarning where
  | unknownDisk (database table disk : String)
deriving DecidableEq, Repr

/-- restore.go lines 490-493: `diskMap[disk.Name] = disk.Path`. -/
def mkDiskMap (disks : List Disk) : List (String × Path) :=
  disks.foldl (fun m d => mapPut m d.name d.path) []

/-- The synthetic stand-in disk of restore.go lines 563-567: the unknown name
pointing at the default disk path with type `local`. -/
def syntheticDisk (diskMap : List (String × Path)) (d : String) : Disk :=
  { name := d, path := (List.lookup "default" diskMap).getD [], type := "local" }

/-- Body of the disk loop of restore.go lines 552-571 for one `t.Parts`
entry: if the disk is not in `diskMap`, log a warning and (unless a disk of
that name is already present) append the synthetic disk entry. -/
def adStep (diskMap : List (String × Path)) (db tbl : String)
    (acc : List Disk × List RdrWarning) (dp : String × List Part) :
    List Disk × List RdrWarning :=
  if (List.lookup dp.1 diskMap).isSome then acc
  else
    let ws := acc.2 ++ [RdrWarning.unknownDisk db tbl dp.1]
    if acc.1.any (fun dk => dk.name == dp.1) then (acc.1, ws)
    else (acc.1 ++ [syntheticDisk diskMap dp.1], ws)

/-- restore.go lines 552-571 for one table. -/
def augmentDisksTable (diskMap : List (String × Path)) (t : TableMetadata)
    (acc : List Disk × List RdrWarning) : List Disk × List RdrWarning :=
  t.parts.foldl (adStep diskMap t.database t.table) acc

/-- restore.go lines 551-572: the disk-augmentation loop over all tables. -/
def augmentDisks (tables : List TableMetadata) (diskMap : List (String × Path))
    (disks : List Disk) : List Disk × List RdrWarning :=
  tables.foldl (fun acc t => augmentDisksTable diskMap t acc) (disks, [])

/-- restore.go lines 573-579: `dstTablesMap[TableTitle{db,name}] = chTable`
(later entries overwrite, realised by prepending). -/
def mkDstTablesMap (chTables : List ChTable) :
    List ((String × String) × ChTable) :=
  chTables.foldl (fun m c => ((c.database, c.name), c) :: m) []

/-- restore.go lines 583-588 / 606-611: destination database resolution via
the restore-database mapping (identity when unmapped or mapping empty). -/
def lookupTargetDb (mapping : List (String × String)) (db : String) : String :=
  if mapping.isEmpty then db
  else
    match List.lookup db mapping with
    | some t => t
    | none => db

/-- restore.go lines 581-599: collect the quoted qualified names of all
tables without a live destination table. -/
def missingTablesFold (mapping : List (String × String))
    (tables : List TableMetadata) (chTables : List ChTable) : List String :=
  tables.foldl (fun acc t =>
    if chTables.any (fun c =>
        lookupTargetDb mapping t.database == c.database && t.table == c.name) then acc
    else acc ++ ["\x27" ++ lookupTargetDb mapping t.database ++ "." ++ t.table ++ "\x27"])
    []

/-- restore.go lines 604-628: the placement loop.  Per table: resolve the
destination database, look the live table up in `dstTablesMap` (failing with
the `system.tables` error), call `CopyDataToDetached` (with the ORIGINAL
database name, the disk list and the live table data paths) and then
`AttachPartitions` (with the mapped database name); each failure is wrapped
and returned.  The call trace (`copied`, `attached`) is recorded. -/
def restoreDataPlacement (mapping : List (String × String))
    (dstMap : List ((String × String) × ChTable)) (disks2 : List Disk)
    (copyO : String → String → List Disk → List Path → Except String Unit)
    (attachO : String → String → List Disk → Except String Unit) :
    List TableMetadata →
      List (String × String × List Disk) × List (String × String) × Except String Unit
  | [] => ([], [], .ok ())
  | t :: rest =>
    let dstDatabase := lookupTargetDb mapping t.database
    match List.lookup (dstDatabase, t.table) dstMap with
    | none => ([], [],
        .error ("can\x27t find \x27" ++ dstDatabase ++ "." ++ t.table ++
          "\x27 in current system.tables"))
    | some dstTable =>
      match copyO t.database t.table disks2 dstTable.dataPaths with
      | .error e => ([(t.database, t.table, disks2)], [],
          .error ("can\x27t restore \x27" ++ t.database ++ "." ++ t.table ++ "\x27: " ++ e))
      | .ok _ =>
        match attachO dstDatabase t.table disks2 with
        | .error e => ([(t.database, t.table, disks2)], [],
            .error ("can\x27t attach partitions for table \x27" ++ dstDatabase ++ "." ++
              t.table ++ "\x27: " ++ e))
        | .ok _ =>
          let r := restoreDataPlacement mapping dstMap disks2 copyO attachO rest
          ((t.database, t.table, disks2) :: r.1, (dstDatabase, t.table) :: r.2.1, r.2.2)

/-- Outcome of `restoreDataRegular`: warnings, the placement call traces and
the final result. -/
structure RdrOut where
  warnings : List RdrWarning
  copied : List (String × String × List Disk)
  attached : List (String × String)
  result : Except String Unit
deriving DecidableEq, Repr

/-- `restoreDataRegular` (restore.go lines 527-630): disk augmentation, then
the all-tables-up-front missing-destination check (aggregating EVERY missing
qualified name into one error before any placement), then the placement
loop.  The table-pattern rewrite and `GetTables` call of lines 528-549 are
represented by the `chTables` input. -/
def restoreDataRegular (mapping : List (String × String))
    (tables : List TableMetadata) (diskMap : List (String × Path))
    (disks : List Disk) (chTables : List ChTable)
    (copyO : String → String → List Disk → List Path → Except String Unit)
    (attachO : String → String → List Disk → Except String Unit) : RdrOut :=
  let dw := augmentDisks tables diskMap disks
  let missing := missingTablesFold mapping tables chTables
  if missing.isEmpty then
    let pl := restoreDataPlacement mapping (mkDstTablesMap chTables) dw.1 copyO attachO tables
    { warnings := dw.2, copied := pl.1, attached := pl.2.1, result := pl.2.2 }
  else
    { warnings := dw.2, copied := [], attached := [],
      result := .error (String.intercalate ", " missing ++
        " is not created. Restore schema first or create missing tables manually") }


/-!  ## Claim C5  -/

/-- The missing-tables fold is the filter-map of tables without a live
destination match. -/
theorem missingTablesFold_eq (mapping : List (String × String))
    (chTables : List ChTable) :
    ∀ (tables : List TableMetadata) (acc : List String),
      tables.foldl (fun acc t =>
        if chTables.any (fun c =>
            lookupTargetDb mapping t.database == c.database && t.table == c.name) then acc
        else acc ++
          ["\x27" ++ lookupTargetDb mapping t.database ++ "." ++ t.table ++ "\x27"]) acc =
      acc ++ (tables.filter (fun t => !(chTables.any (fun c =>
          lookupTargetDb mapping t.database == c.database && t.table == c.name)))).map
        (fun t => "\x27" ++ lookupTargetDb mapping t.database ++ "." ++ t.table ++ "\x27") := by
  intro tables
  induction tables with
  | nil =>
    intro acc
    simp
  | cons t rest ih =>
    intro acc
    rw [List.foldl_cons, List.filter_cons]
    cases hany : chTables.any (fun c =>
        lookupTargetDb mapping t.database == c.database && t.table == c.name) with
    | true =>
      simp only [Bool.not_true, Bool.false_eq_true, if_false, eq_self_iff_true, if_true]
      exact ih acc
    | false =>
      simp only [Bool.not_false, Bool.false_eq_true, if_false, eq_self_iff_true, if_true]
      rw [ih]
      simp

/-- C5: before any data placement happens, `restoreDataRegular` checks for
every selected table that a live table exists under the mapped destination
database name; when one or more are missing it fails with a single aggregate
error listing every missing qualified name (joined with `", "`), makes no
`CopyDataToDetached` and no `AttachPartitions` call, and the collected list
contains the quoted name of every table lacking a live match. -/
theorem c5_destination_missing_aggregate (mapping : List (String × String))
    (tables : List TableMetadata) (diskMap : List (String × Path))
    (disks : List Disk) (chTables : List ChTable)
    (copyO : String → String → List Disk → List Path → Except String Unit)
    (attachO : String → String → List Disk → Except String Unit)
    (h : missingTablesFold mapping tables chTables ≠ []) :
    (restoreDataRegular mapping tables diskMap disks chTables copyO attachO).result =
      .error (String.intercalate ", " (missingTablesFold mapping tables chTables) ++
        " is not created. Restore schema first or create missing tables manually") ∧
    (restoreDataRegular mapping tables diskMap disks chTables copyO attachO).copied = [] ∧
    (restoreDataRegular mapping tables diskMap disks chTables copyO attachO).attached = [] ∧
    (∀ t ∈ tables,
      (chTables.any (fun c =>
        lookupTargetDb mapping t.database == c.database && t.table == c.name)) = false →
      ("\x27" ++ lookupTargetDb mapping t.database ++ "." ++ t.table ++ "\x27") ∈
        missingTablesFold mapping tables chTables) := by
  have hempty : (missingTablesFold mapping tables chTables).isEmpty = false := by
    cases hm : missingTablesFold mapping tables chTables with
    | nil => exact absurd hm h
    | cons a l => rfl
  have hre : restoreDataRegular mapping tables diskMap disks chTables copyO attachO =
      { warnings := (augmentDisks tables diskMap disks).2, copied := [], attached := [],
        result := .error (String.intercalate ", " (missingTablesFold mapping tables chTables) ++
          " is not created. Restore schema first or create missing tables manually") } := by
    unfold restoreDataRegular
    simp only [hempty, Bool.false_eq_true, if_false]
  refine ⟨by rw [hre], by rw [hre], by rw [hre], ?_⟩
  intro t ht hmiss
  have hchar := missingTablesFold_eq mapping chTables tables []
  unfold missingTablesFold
  rw [hchar]
  simp only [List.nil_append]
  exact List.mem_map_of_mem _ (List.mem_filter.2 ⟨ht, by rw [hmiss]; rfl⟩)

/-- C5 witness: one table, no live tables at all — the aggregate error names
it, and no placement call is made. -/
theorem c5_witness :
    (restoreDataRegular [] [{ database := "d", table := "t", query := "q", parts := [] }]
      [] [] [] (fun _ _ _ _ => Except.ok ()) (fun _ _ _ => Except.ok ())).result =
      .error ("\x27d.t\x27 is not created. Restore schema first or create missing tables manually") ∧
    (restoreDataRegular [] [{ database := "d", table := "t", query := "q", parts := [] }]
      [] [] [] (fun _ _ _ _ => Except.ok ()) (fun _ _ _ => Except.ok ())).copied = [] := by
  have h := c5_destination_missing_aggregate []
    ([{ database := "d", table := "t", query := "q", parts := [] }] : List TableMetadata)
    [] [] [] (fun _ _ _ _ => Except.ok ()) (fun _ _ _ => Except.ok ()) (by decide)
  exact ⟨h.1, h.2.1⟩


/-!  ## Claim C8  -/

/-- Every disk whose name is unknown to `diskMap` that the augmentation may
have added is exactly the synthetic stand-in entry. -/
def SyntheticInv (diskMap : List (String × Path)) (l : List Disk) : Prop :=
  ∀ dk ∈ l, List.lookup dk.name diskMap = none → dk = syntheticDisk diskMap dk.name

theorem adStep_append (diskMap : List (String × Path)) (db tbl : String)
    (acc : List Disk × List RdrWarning) (dp : String × List Part) :
    ∃ l w, adStep diskMap db tbl acc dp = (acc.1 ++ l, acc.2 ++ w) ∧
      ∀ dk ∈ l, List.lookup dk.name diskMap = none ∧ dk = syntheticDisk diskMap dk.name := by
  unfold adStep
  by_cases hlk : (List.lookup dp.1 diskMap).isSome = true
  · refine ⟨[], [], ?_, by simp⟩
    rw [if_pos hlk]
    simp
  · rw [if_neg hlk]
    have hnone : List.lookup dp.1 diskMap = none := by
      cases hx : List.lookup dp.1 diskMap with
      | none => rfl
      | some v => rw [hx] at hlk; simp at hlk
    by_cases hany : (acc.1.any (fun dk => dk.name == dp.1)) = true
    · refine ⟨[], [RdrWarning.unknownDisk db tbl dp.1], ?_, by simp⟩
      simp only [hany, if_true]
      simp
    · refine ⟨[syntheticDisk diskMap dp.1], [RdrWarning.unknownDisk db tbl dp.1], ?_, ?_⟩
      · simp only [if_neg hany]
      · intro dk hdk
        simp only [List.mem_singleton] at hdk
        subst hdk
        exact ⟨hnone, rfl⟩

theorem adStep_establishes (diskMap : List (String × Path)) (db tbl : String)
    (acc : List Disk × List RdrWarning) (dp : String × List Part)
    (hnone : List.lookup dp.1 diskMap = none) (hinv : SyntheticInv diskMap acc.1) :
    syntheticDisk diskMap dp.1 ∈ (adStep diskMap db tbl acc dp).1 ∧
    RdrWarning.unknownDisk db tbl dp.1 ∈ (adStep diskMap db tbl acc dp).2 := by
  unfold adStep
  rw [if_neg (by simp [hnone])]
  by_cases hany : (acc.1.any (fun dk => dk.name == dp.1)) = true
  · simp only [hany, if_true]
    constructor
    · obtain ⟨dk, hdk, hname⟩ := List.any_eq_true.1 hany
      have hname2 : dk.name = dp.1 := by simpa using hname
      have := hinv dk hdk (by rw [hname2]; exact hnone)
      rw [hname2] at this
      rw [← this]
      exact hdk
    · simp
  · simp only [if_neg hany]
    constructor
    · simp
    · simp

theorem adFold_append (diskMap : List (String × Path)) (db tbl : String) :
    ∀ (ps : List (String × List Part)) (acc : List Disk × List RdrWarning),
      ∃ l w, ps.foldl (adStep diskMap db tbl) acc = (acc.1 ++ l, acc.2 ++ w) ∧
        ∀ dk ∈ l, List.lookup dk.name diskMap = none ∧ dk = syntheticDisk diskMap dk.name := by
  intro ps
  induction ps with
  | nil =>
    intro acc
    exact ⟨[], [], by simp, by simp⟩
  | cons dp rest ih =>
    intro acc
    rw [List.foldl_cons]
    obtain ⟨l1, w1, he1, hl1⟩ := adStep_append diskMap db tbl acc dp
    obtain ⟨l2, w2, he2, hl2⟩ := ih (adStep diskMap db tbl acc dp)
    refine ⟨l1 ++ l2, w1 ++ w2, by rw [he2, he1]; simp, ?_⟩
    intro dk hdk
    rcases List.mem_append.mp hdk with h | h
    · exact hl1 dk h
    · exact hl2 dk h

theorem syntheticInv_append (diskMap : List (String × Path)) (l1 l2 : List Disk)
    (h1 : SyntheticInv diskMap l1)
    (h2 : ∀ dk ∈ l2, List.lookup dk.name diskMap = none ∧ dk = syntheticDisk diskMap dk.name) :
    SyntheticInv diskMap (l1 ++ l2) := by
  intro dk hdk hnone
  rcases List.mem_append.mp hdk with h | h
  · exact h1 dk h hnone
  · exact (h2 dk h).2

theorem adFold_establishes (diskMap : List (String × Path)) (db tbl : String) :
    ∀ (ps : List (String × List Part)) (acc : List Disk × List RdrWarning),
      SyntheticInv diskMap acc.1 →
      ∀ d pl, (d, pl) ∈ ps → List.lookup d diskMap = none →
        syntheticDisk diskMap d ∈ (ps.foldl (adStep diskMap db tbl) acc).1 ∧
        RdrWarning.unknownDisk db tbl d ∈ (ps.foldl (adStep diskMap db tbl) acc).2 := by
  intro ps
  induction ps with
  | nil =>
    intro acc hinv d pl hmem
    cases hmem
  | cons dp rest ih =>
    intro acc hinv d pl hmem hnone
    rw [List.foldl_cons]
    obtain ⟨l1, w1, he1, hl1⟩ := adStep_append diskMap db tbl acc dp
    have hinv1 : SyntheticInv diskMap (adStep diskMap db tbl acc dp).1 := by
      rw [he1]
      exact syntheticInv_append diskMap acc.1 l1 hinv hl1
    rcases List.mem_cons.mp hmem with heq | hmem2
    · subst heq
      obtain ⟨hsyn, hwarn⟩ := adStep_establishes diskMap db tbl acc (d, pl) hnone hinv
      obtain ⟨l2, w2, he2, _⟩ :=
        adFold_append diskMap db tbl rest (adStep diskMap db tbl acc (d, pl))
      rw [he2]
      constructor
      · simp only [List.mem_append]
        left
        exact hsyn
      · simp only [List.mem_append]
        left
        exact hwarn
    · exact ih (adStep diskMap db tbl acc dp) hinv1 d pl hmem2 hnone

theorem augmentDisks_append (diskMap : List (String × Path)) :
    ∀ (tables : List TableMetadata) (acc : List Disk × List RdrWarning),
      ∃ l w, tables.foldl (fun acc t => augmentDisksTable diskMap t acc) acc =
          (acc.1 ++ l, acc.2 ++ w) ∧
        ∀ dk ∈ l, List.lookup dk.name diskMap = none ∧ dk = syntheticDisk diskMap dk.name := by
  intro tables
  induction tables with
  | nil =>
    intro acc
    exact ⟨[], [], by simp, by simp⟩
  | cons t rest ih =>
    intro acc
    rw [List.foldl_cons]
    obtain ⟨l1, w1, he1, hl1⟩ := adFold_append diskMap t.database t.table t.parts acc
    obtain ⟨l2, w2, he2, hl2⟩ := ih (augmentDisksTable diskMap t acc)
    have he1b : augmentDisksTable diskMap t acc = (acc.1 ++ l1, acc.2 ++ w1) := he1
    refine ⟨l1 ++ l2, w1 ++ w2, by rw [he2, he1b]; simp, ?_⟩
    intro dk hdk
    rcases List.mem_append.mp hdk with h | h
    · exact hl1 dk h
    · exact hl2 dk h

theorem augmentDisks_establishes (diskMap : List (String × Path)) :
    ∀ (tables : List TableMetadata) (acc : List Disk × List RdrWarning),
      SyntheticInv diskMap acc.1 →
      ∀ t ∈ tables, ∀ d pl, (d, pl) ∈ t.parts → List.lookup d diskMap = none →
        syntheticDisk diskMap d ∈
          (tables.foldl (fun acc t => augmentDisksTable diskMap t acc) acc).1 ∧
        RdrWarning.unknownDisk t.database t.table d ∈
          (tables.foldl (fun acc t => augmentDisksTable diskMap t acc) acc).2 := by
  intro tables
  induction tables with
  | nil =>
    intro acc hinv t htm
    cases htm
  | cons t0 rest ih =>
    intro acc hinv t htm d pl hd hnone
    rw [List.foldl_cons]
    obtain ⟨l1, w1, he1, hl1⟩ := adFold_append diskMap t0.database t0.table t0.parts acc
    have he1 : augmentDisksTable diskMap t0 acc = (acc.1 ++ l1, acc.2 ++ w1) := he1
    have hinv1 : SyntheticInv diskMap (augmentDisksTable diskMap t0 acc).1 := by
      rw [he1]
      exact syntheticInv_append diskMap acc.1 l1 hinv hl1
    rcases List.mem_cons.mp htm with rfl | hmem2
    · obtain ⟨hsyn, hwarn⟩ :=
        adFold_establishes diskMap t.database t.table t.parts acc hinv d pl hd hnone
      obtain ⟨l2, w2, he2, _⟩ := augmentDisks_append diskMap rest (augmentDisksTable diskMap t acc)
      rw [he2]
      constructor
      · simp only [List.mem_append]
        left
        exact hsyn
      · simp only [List.mem_append]
        left
        exact hwarn
    · exact ih (augmentDisksTable diskMap t0 acc) hinv1 t hmem2 d pl hd hnone


theorem foldl_mapPut_lookup_isSome (disks : List Disk) :
    ∀ (m : List (String × Path)) (n : String),
      ((List.lookup n m).isSome = true ∨ ∃ dk ∈ disks, dk.name = n) →
      (List.lookup n (disks.foldl (fun m d => mapPut m d.name d.path) m)).isSome = true := by
  induction disks with
  | nil =>
    intro m n h
    rcases h with h | ⟨dk, hdk, _⟩
    · exact h
    · cases hdk
  | cons d rest ih =>
    intro m n h
    rw [List.foldl_cons]
    apply ih
    rcases h with h | ⟨dk, hdk, hname⟩
    · exact Or.inl (lookup_mapPut_isSome m d.name n d.path h)
    · rcases List.mem_cons.mp hdk with rfl | hmem
      · left
        rw [← hname, lookup_mapPut_self]
        rfl
      · exact Or.inr ⟨dk, hmem, hname⟩

theorem mkDiskMap_lookup_isSome (disks : List Disk) (dk : Disk) (h : dk ∈ disks) :
    (List.lookup dk.name (mkDiskMap disks)).isSome = true :=
  foldl_mapPut_lookup_isSome disks [] dk.name (Or.inr ⟨dk, h, rfl⟩)

theorem restoreDataPlacement_copied_disks (mapping : List (String × String))
    (dstMap : List ((String × String) × ChTable)) (disks2 : List Disk)
    (copyO : String → String → List Disk → List Path → Except String Unit)
    (attachO : String → String → List Disk → Except String Unit) :
    ∀ (tables : List TableMetadata) (entry : String × String × List Disk),
      entry ∈ (restoreDataPlacement mapping dstMap disks2 copyO attachO tables).1 →
      entry.2.2 = disks2 := by
  intro tables
  induction tables with
  | nil =>
    intro e he
    cases he
  | cons t rest ih =>
    intro e he
    simp only [restoreDataPlacement] at he
    split at he
    · cases he
    · split at he
      · simp only [List.mem_singleton] at he
        subst he
        rfl
      · split at he
        · simp only [List.mem_singleton] at he
          subst he
          rfl
        · rcases List.mem_cons.mp he with rfl | hmem
          · rfl
          · exact ih e hmem

theorem restoreDataPlacement_ok (mapping : List (String × String))
    (dstMap : List ((String × String) × ChTable)) (disks2 : List Disk)
    (copyO : String → String → List Disk → List Path → Except String Unit)
    (attachO : String → String → List Disk → Except String Unit)
    (hcopy : ∀ a b ds dp, copyO a b ds dp = Except.ok ())
    (hatt : ∀ a b ds, attachO a b ds = Except.ok ()) :
    ∀ (tables : List TableMetadata),
      (∀ t ∈ tables,
        (List.lookup (lookupTargetDb mapping t.database, t.table) dstMap).isSome = true) →
      (restoreDataPlacement mapping dstMap disks2 copyO attachO tables).2.2 =
        Except.ok () := by
  intro tables
  induction tables with
  | nil =>
    intro h
    rfl
  | cons t rest ih =>
    intro h
    obtain ⟨c, hc⟩ := Option.isSome_iff_exists.1 (h t (by simp))
    simp only [restoreDataPlacement, hc, hcopy, hatt]
    exact ih (fun t2 ht2 => h t2 (by simp [ht2]))

theorem foldl_dstMap_lookup (chTables : List ChTable) :
    ∀ (m : List ((String × String) × ChTable)) (db tb : String),
      ((List.lookup (db, tb) m).isSome = true ∨
        ∃ c ∈ chTables, c.database = db ∧ c.name = tb) →
      (List.lookup (db, tb)
        (chTables.foldl (fun m c => ((c.database, c.name), c) :: m) m)).isSome = true := by
  induction chTables with
  | nil =>
    intro m db tb h
    rcases h with h | ⟨c, hc, _⟩
    · exact h
    · cases hc
  | cons c0 rest ih =>
    intro m db tb h
    rw [List.foldl_cons]
    apply ih
    rcases h with h | ⟨c, hc, hdb, htb⟩
    · left
      cases hk : (((db, tb) : String × String) == (c0.database, c0.name)) with
      | true => simp [List.lookup, hk]
      | false => simpa [List.lookup, hk] using h
    · rcases List.mem_cons.mp hc with rfl | hmem
      · left
        have : (((db, tb) : String × String) == (c.database, c.name)) = true := by
          rw [hdb, htb]
          exact beq_self_eq_true _
        simp [List.lookup, this]
      · exact Or.inr ⟨c, hmem, hdb, htb⟩

theorem mkDstTablesMap_lookup (chTables : List ChTable) (db tb : String)
    (h : ∃ c ∈ chTables, c.database = db ∧ c.name = tb) :
    (List.lookup (db, tb) (mkDstTablesMap chTables)).isSome = true :=
  foldl_dstMap_lookup chTables [] db tb (Or.inr h)

theorem missingTablesFold_empty (mapping : List (String × String))
    (tables : List TableMetadata) (chTables : List ChTable)
    (h : missingTablesFold mapping tables chTables = []) :
    ∀ t ∈ tables, (chTables.any (fun c =>
      lookupTargetDb mapping t.database == c.database && t.table == c.name)) = true := by
  intro t ht
  unfold missingTablesFold at h
  rw [missingTablesFold_eq mapping chTables tables []] at h
  simp only [List.nil_append] at h
  have hf := (List.map_eq_nil_iff).1 h
  have hnt := (List.filter_eq_nil_iff).1 hf t ht
  cases hany : chTables.any (fun c =>
      lookupTargetDb mapping t.database == c.database && t.table == c.name) with
  | true => rfl
  | false =>
    exfalso
    exact hnt (by rw [hany]; rfl)

/-- C8: for every table whose parts reference a disk name absent from the
live engine disk map, `restoreDataRegular` logs a warning and works with a
disk list containing a synthetic entry of that name pointing at the default
disk path (type `"local"`); every `CopyDataToDetached` call receives that
augmented disk list, and the unknown disk by itself causes no failure: when
every destination table exists and the placement oracles succeed, the data
restore completes with `ok`. -/
theorem c8_unknown_disk_tolerated (mapping : List (String × String))
    (tables : List TableMetadata) (disks : List Disk)
    (diskMap : List (String × Path)) (chTables : List ChTable)
    (copyO : String → String → List Disk → List Path → Except String Unit)
    (attachO : String → String → List Disk → Except String Unit)
    (t : TableMetadata) (d : String) (pl : List Part)
    (hdm : diskMap = mkDiskMap disks) (ht : t ∈ tables) (hd : (d, pl) ∈ t.parts)
    (hmiss : List.lookup d diskMap = none) :
    syntheticDisk diskMap d ∈ (augmentDisks tables diskMap disks).1 ∧
    RdrWarning.unknownDisk t.database t.table d ∈
      (restoreDataRegular mapping tables diskMap disks chTables copyO attachO).warnings ∧
    (∀ entry ∈ (restoreDataRegular mapping tables diskMap disks chTables copyO
        attachO).copied, entry.2.2 = (augmentDisks tables diskMap disks).1) ∧
    (missingTablesFold mapping tables chTables = [] →
      (∀ a b ds dp2, copyO a b ds dp2 = Except.ok ()) →
      (∀ a b ds, attachO a b ds = Except.ok ()) →
      (restoreDataRegular mapping tables diskMap disks chTables copyO attachO).result =
        Except.ok ()) := by
  have hinv0 : SyntheticInv diskMap disks := by
    intro dk hdk hnone
    exfalso
    have := mkDiskMap_lookup_isSome disks dk hdk
    rw [← hdm, hnone] at this
    cases this
  have hest := augmentDisks_establishes diskMap tables (disks, []) hinv0 t ht d pl hd hmiss
  have hw : (restoreDataRegular mapping tables diskMap disks chTables copyO
      attachO).warnings = (augmentDisks tables diskMap disks).2 := by
    simp only [restoreDataRegular]
    split
    · rfl
    · rfl
  refine ⟨hest.1, ?_, ?_, ?_⟩
  · rw [hw]
    exact hest.2
  · intro e he
    simp only [restoreDataRegular] at he
    split at he
    · exact restoreDataPlacement_copied_disks mapping (mkDstTablesMap chTables)
        (augmentDisks tables diskMap disks).1 copyO attachO tables e he
    · cases he
  · intro hM0 hcopy hatt
    have hMe : (missingTablesFold mapping tables chTables).isEmpty = true := by
      rw [hM0]
      rfl
    simp only [restoreDataRegular, hMe, if_true]
    apply restoreDataPlacement_ok mapping (mkDstTablesMap chTables)
      (augmentDisks tables diskMap disks).1 copyO attachO hcopy hatt tables
    intro t2 ht2
    have hany := missingTablesFold_empty mapping tables chTables hM0 t2 ht2
    obtain ⟨c, hc, hb⟩ := List.any_eq_true.1 hany
    rw [Bool.and_eq_true] at hb
    refine mkDstTablesMap_lookup chTables _ _ ⟨c, hc, ?_, ?_⟩
    · exact (beq_iff_eq.1 hb.1).symm
    · exact (beq_iff_eq.1 hb.2).symm

def c8Disks : List Disk := [{ name := "default", path := ["var", "lib"], type := "local" }]

def c8Tables : List TableMetadata :=
  [{ database := "d", table := "t", query := "q", parts := [("cold", [{ name := "p" }])] }]

def c8ChTables : List ChTable :=
  [{ database := "d", name := "t", createTableQuery := "q", dataPaths := [["var", "lib", "data"]] }]

/-- C8 witness: a table whose parts sit on the unknown disk `"cold"`; the
synthetic entry is added and the whole data restore succeeds. -/
theorem c8_witness :
    syntheticDisk (mkDiskMap c8Disks) "cold" ∈
      (augmentDisks c8Tables (mkDiskMap c8Disks) c8Disks).1 ∧
    (restoreDataRegular [] c8Tables (mkDiskMap c8Disks) c8Disks c8ChTables
      (fun _ _ _ _ => Except.ok ()) (fun _ _ _ => Except.ok ())).result = Except.ok () := by
  have h := c8_unknown_disk_tolerated [] c8Tables c8Disks (mkDiskMap c8Disks) c8ChTables
    (fun _ _ _ _ => Except.ok ()) (fun _ _ _ => Except.ok ())
    { database := "d", table := "t", query := "q", parts := [("cold", [{ name := "p" }])] }
    "cold" [{ name := "p" }] rfl (by decide) (by decide) (by decide)
  exact ⟨h.1, h.2.2.2 (by decide) (fun _ _ _ _ => rfl) (fun _ _ _ => rfl)⟩


/-!  ## Filesystem model and `CopyDataToDetached`
(filesystemhelper.go lines 28-180)  -/

/-- A filesystem entry: directory, regular file (with an inode identity for
hard links), or anything else (symlink, device, ...) which the walk skips. -/
inductive FsEntry where
  | dir
  | file (ino : Nat)
  | special
deriving DecidableEq, Repr

/-- The filesystem: an association list from component paths to entries.
Every mutation performed by the embedded code appends a binding for a
previously absent key, so `List.lookup` (first match) is stable under them. -/
abbrev Fs := List (Path × FsEntry)

theorem lookup_append_some {α β : Type} [BEq α] (l1 l2 : List (α × β)) (k : α) (v : β)
    (h : List.lookup k l1 = some v) : List.lookup k (l1 ++ l2) = some v := by
  induction l1 with
  | nil => cases h
  | cons e rest ih =>
    simp only [List.lookup] at h ⊢
    cases hk : (k == e.1) with
    | true => rw [hk] at h; simpa [hk] using h
    | false => rw [hk] at h; simpa [hk] using ih h

theorem lookup_append_none {α β : Type} [BEq α] (l1 l2 : List (α × β)) (k : α)
    (h : List.lookup k l1 = none) : List.lookup k (l1 ++ l2) = List.lookup k l2 := by
  induction l1 with
  | nil => rfl
  | cons e rest ih =>
    simp only [List.lookup] at h ⊢
    cases hk : (k == e.1) with
    | true => rw [hk] at h; cases h
    | false => rw [hk] at h; simpa [hk] using ih h

theorem lookup_isSome_append {α β : Type} [BEq α] (l1 l2 : List (α × β)) (k : α)
    (h : (List.lookup k l1).isSome = true) :
    (List.lookup k (l1 ++ l2)).isSome = true := by
  obtain ⟨v, hv⟩ := Option.isSome_iff_exists.1 h
  rw [lookup_append_some l1 l2 k v hv]
  rfl

theorem lookup_some_mem {β : Type} (l : List (Path × β)) (k : Path) (v : β)
    (h : List.lookup k l = some v) : (k, v) ∈ l := by
  induction l with
  | nil => cases h
  | cons e rest ih =>
    simp only [List.lookup] at h
    cases hk : (k == e.1) with
    | true =>
      rw [hk] at h
      injection h with h2
      have hke : k = e.1 := by simpa using hk
      have hkv : (k, v) = e := by rw [hke, ← h2]
      rw [hkv]
      exact List.mem_cons_self e rest
    | false =>
      rw [hk] at h
      right
      exact ih h

/-- `os.MkdirAll` (and the `Mkdir`/`MkdirAll` wrappers of filesystemhelper.go
lines 65-116, whose `Chown` is a no-op for a non-root caller): create `p` and
every missing ancestor as directories; an existing directory (the stat fast
path) succeeds unchanged, an existing non-directory is an error.  The fuel is
`p.length`; each recursion step drops the last component, so the fuel-out
equation is unreachable from `mkdirAllFs`. -/
def mkdirAllFsAux : Nat → Fs → Path → Except Unit Fs
  | _, fs, [] => Except.ok fs
  | 0, _, _ :: _ => Except.error ()
  | fuel + 1, fs, p =>
    match List.lookup p fs with
    | some FsEntry.dir => Except.ok fs
    | some _ => Except.error ()
    | none =>
      match mkdirAllFsAux fuel fs p.dropLast with
      | .error e => .error e
      | .ok fs2 => Except.ok (fs2 ++ [(p, FsEntry.dir)])

def mkdirAllFs (fs : Fs) (p : Path) : Except Unit Fs :=
  mkdirAllFsAux p.length fs p

/-- Errors of the `link(2)` system call as distinguished by the code:
`os.IsExist` versus everything else. -/
inductive LinkErr where
  | exist
  | other
deriving DecidableEq, Repr

/-- `os.Link(src, dst)`: fails with an already-exists error when `dst`
exists; otherwise requires `src` to be a regular file and the parent of
`dst` to be a directory, and records a new hard link (same inode). -/
def osLink (fs : Fs) (src dst : Path) : Except LinkErr Fs :=
  if (List.lookup dst fs).isSome then Except.error LinkErr.exist
  else
    match List.lookup src fs with
    | some (FsEntry.file i) =>
      if List.lookup dst.dropLast fs = some FsEntry.dir then
        Except.ok (fs ++ [(dst, FsEntry.file i)])
      else Except.error LinkErr.other
    | _ => Except.error LinkErr.other

/-- The walk callback of filesystemhelper.go lines 152-173 for one visited
entry: mirror directories (`Mkdir`), hard-link regular files (swallowing the
already-exists error as non-fatal, line 168), skip anything else; the final
`Chown` is a no-op for a non-root caller. -/
def walkStep (partPath detachedPath : Path) (fs : Fs) (entry : Path × FsEntry) :
    Except String Fs :=
  let dst := detachedPath ++ entry.1.drop partPath.length
  match entry.2 with
  | FsEntry.dir =>
    match mkdirAllFs fs dst with
    | .ok fs2 => Except.ok fs2
    | .error _ => Except.error "mkdir failed"
  | FsEntry.file _ =>
    match osLink fs entry.1 dst with
    | .ok fs2 => Except.ok fs2
    | .error LinkErr.exist => Except.ok fs
    | .error LinkErr.other => Except.error "failed to create hard link"
  | FsEntry.special => Except.ok fs

/-- `filepath.Walk`: the entries of the filesystem under `root` (the root
itself included), enumerated in a fixed deterministic order (storage order;
an abstraction of the lexical visiting order, which none of the claims
depend on). -/
def fsWalk (fs : Fs) (root : Path) : List (Path × FsEntry) :=
  fs.filter (fun e => root.isPrefixOf e.1)

/-- filesystemhelper.go lines 131-176, one part: ensure the detached
directory for the part exists (stat check; a `MkdirAll` failure is only
warned about, line 138), pick the part source path (primary layout, or the
legacy layout without the disk-name segment when the primary is absent,
lines 148-151), then walk the source and mirror it; walk errors are wrapped
with the part name. -/
def copyOnePart (fs : Fs) (detachedParentDir : Path) (partName : String)
    (srcPrimary srcLegacy : Path) : Except String Fs :=
  let detachedPath := detachedParentDir ++ [partName]
  let step1 : Except String Fs :=
    match List.lookup detachedPath fs with
    | none =>
      match mkdirAllFs fs detachedPath with
      | .ok fs2 => Except.ok fs2
      | .error _ => Except.ok fs
    | some FsEntry.dir => Except.ok fs
    | some _ => Except.error ("\x27" ++ String.intercalate "/" detachedPath ++
        "\x27 should be directory or absent")
  match step1 with
  | .error e => .error e
  | .ok fs1 =>
    let partPath := if (List.lookup srcPrimary fs1).isSome then srcPrimary else srcLegacy
    if (List.lookup partPath fs1).isSome then
      match (fsWalk fs1 partPath).foldlM (walkStep partPath detachedPath) fs1 with
      | .ok fs2 => Except.ok fs2
      | .error e => Except.error ("error during filepath.Walk for part \x27" ++ partName ++
          "\x27: " ++ e)
    else
      Except.error ("error during filepath.Walk for part \x27" ++ partName ++
        "\x27: walk root does not exist")

/-- Go `backupTable.Parts[diskName]` (missing key reads as empty). -/
def partsOf (t : TableMetadata) (d : String) : List Part :=
  (List.lookup d t.parts).getD []

/-- `CopyDataToDetached` (filesystemhelper.go lines 120-180): for each disk
with parts, mirror every part from the backup shadow tree into the disk's
detached directory.  `dstDataPaths` stands for
`clickhouse.GetDisksByPaths(disks, tableDataPaths)` (driver code outside the
given sources) and `encode` for `common.TablePathEncode`. -/
def CopyDataToDetached (encode : String → String) (backupName : String)
    (table : TableMetadata) (disks : List Disk) (dstDataPaths : String → Path)
    (fs : Fs) : Except String Fs :=
  disks.foldlM (fun fs disk =>
    if (partsOf table disk.name).isEmpty then Except.ok fs
    else
      (partsOf table disk.name).foldlM (fun fs part =>
        copyOnePart fs (dstDataPaths disk.name ++ ["detached"]) part.name
          (disk.path ++ ["backup", backupName, "shadow",
            encode table.database, encode table.table, disk.name, part.name])
          (disk.path ++ ["backup", backupName, "shadow",
            encode table.database, encode table.table, part.name])) fs) fs


/-!  ### Path comparability and clean ancestor chains  -/

/-- Two paths are comparable when one is a prefix of the other (the two
directory subtrees they root are not disjoint). -/
def pathCmpB (a b : Path) : Bool :=
  a.isPrefixOf b || b.isPrefixOf a

theorem pathCmpB_iff (a b : Path) : pathCmpB a b = true ↔ a <+: b ∨ b <+: a := by
  unfold pathCmpB
  rw [Bool.or_eq_true, List.isPrefixOf_iff_prefix, List.isPrefixOf_iff_prefix]

theorem pathCmpB_of_common (a b c : Path) (ha : a <+: c) (hb : b <+: c) :
    pathCmpB a b = true :=
  (pathCmpB_iff a b).2 (List.prefix_or_prefix_of_prefix ha hb)

/-- Every existing entry on the ancestor chain of `p` (including `p` itself)
is a directory: exactly the condition under which `os.MkdirAll p` succeeds. -/
def ChainClean (fs : Fs) (p : Path) : Prop :=
  ∀ q ∈ p.inits, q ≠ [] → (List.lookup q fs).getD FsEntry.dir = FsEntry.dir

theorem chainClean_lookup (fs : Fs) (p : Path) (h : ChainClean fs p) (q : Path)
    (hq : q <+: p) (hne : q ≠ []) (e : FsEntry) (he : List.lookup q fs = some e) :
    e = FsEntry.dir := by
  have := h q (by simpa [List.mem_inits] using hq) hne
  rw [he] at this
  exact this

theorem chainClean_of_prefix (fs : Fs) (p q0 : Path) (h : ChainClean fs p)
    (hq : q0 <+: p) : ChainClean fs q0 := by
  intro q hqi hne
  have hqp : q <+: p :=
    List.IsPrefix.trans (by simpa [List.mem_inits] using hqi) hq
  exact h q (by simpa [List.mem_inits] using hqp) hne

theorem lookup_none_of_ne {β : Type} (l : List (Path × β)) (k : Path)
    (h : ∀ x ∈ l, x.1 ≠ k) : List.lookup k l = none := by
  induction l with
  | nil => rfl
  | cons e rest ih =>
    simp only [List.lookup]
    cases hk : (k == e.1) with
    | true =>
      exfalso
      have hke : k = e.1 := by simpa using hk
      exact h e (by simp) hke.symm
    | false =>
      exact ih (fun x hx => h x (by simp [hx]))

/-!  ### `mkdirAllFs` lemmas  -/

theorem mkdirAllFsAux_append :
    ∀ (fuel : Nat) (fs : Fs) (p : Path) (g : Fs),
      mkdirAllFsAux fuel fs p = .ok g →
      ∃ l, g = fs ++ l ∧ ∀ x ∈ l, x.1 ≠ [] ∧ x.1 <+: p ∧ x.2 = FsEntry.dir := by
  intro fuel
  induction fuel with
  | zero =>
    intro fs p g h
    cases p with
    | nil =>
      simp only [mkdirAllFsAux] at h
      injection h with h2
      exact ⟨[], by rw [← h2, List.append_nil], by simp⟩
    | cons a t => simp [mkdirAllFsAux] at h
  | succ fuel ih =>
    intro fs p g h
    cases p with
    | nil =>
      simp only [mkdirAllFsAux] at h
      injection h with h2
      exact ⟨[], by rw [← h2, List.append_nil], by simp⟩
    | cons a t =>
      simp only [mkdirAllFsAux] at h
      cases hlk : List.lookup (a :: t) fs with
      | some e =>
        cases e with
        | dir =>
          rw [hlk] at h
          injection h with h2
          exact ⟨[], by rw [← h2, List.append_nil], by simp⟩
        | file i => rw [hlk] at h; cases h
        | special => rw [hlk] at h; cases h
      | none =>
        rw [hlk] at h
        cases hrec : mkdirAllFsAux fuel fs (a :: t).dropLast with
        | error e => rw [hrec] at h; cases h
        | ok fs2 =>
          rw [hrec] at h
          injection h with h2
          obtain ⟨l, hl, hprop⟩ := ih fs (a :: t).dropLast fs2 hrec
          refine ⟨l ++ [(a :: t, FsEntry.dir)], ?_, ?_⟩
          · rw [← h2, hl, List.append_assoc]
          · intro x hx
            rcases List.mem_append.mp hx with hx | hx
            · obtain ⟨hne, hpre, hdir⟩ := hprop x hx
              exact ⟨hne, List.IsPrefix.trans hpre (List.dropLast_prefix _), hdir⟩
            · simp only [List.mem_singleton] at hx
              subst hx
              exact ⟨by simp, List.prefix_refl _, rfl⟩

theorem mkdirAllFsAux_lookup :
    ∀ (fuel : Nat) (fs : Fs) (p : Path) (g : Fs),
      mkdirAllFsAux fuel fs p = .ok g → p ≠ [] →
      List.lookup p g = some FsEntry.dir := by
  intro fuel
  induction fuel with
  | zero =>
    intro fs p g h hne
    cases p with
    | nil => exact absurd rfl hne
    | cons a t => simp [mkdirAllFsAux] at h
  | succ fuel ih =>
    intro fs p g h hne
    cases p with
    | nil => exact absurd rfl hne
    | cons a t =>
      simp only [mkdirAllFsAux] at h
      cases hlk : List.lookup (a :: t) fs with
      | some e =>
        cases e with
        | dir =>
          rw [hlk] at h
          injection h with h2
          rw [← h2]
          exact hlk
        | file i => rw [hlk] at h; cases h
        | special => rw [hlk] at h; cases h
      | none =>
        rw [hlk] at h
        cases hrec : mkdirAllFsAux fuel fs (a :: t).dropLast with
        | error e => rw [hrec] at h; cases h
        | ok fs2 =>
          rw [hrec] at h
          injection h with h2
          obtain ⟨l, hl, hprop⟩ := mkdirAllFsAux_append fuel fs (a :: t).dropLast fs2 hrec
          have hnotin : List.lookup (a :: t) (fs ++ l) = none := by
            rw [lookup_append_none fs l _ hlk]
            refine lookup_none_of_ne l (a :: t) ?_
            intro x hx
            obtain ⟨hxne, hxpre, _⟩ := hprop x hx
            intro hcontra
            have hlen := List.IsPrefix.length_le hxpre
            rw [hcontra] at hlen
            rw [List.length_dropLast] at hlen
            simp only [List.length_cons] at hlen
            omega
          subst h2
          rw [hl]
          rw [lookup_append_none (fs ++ l) _ _ hnotin]
          simp [List.lookup]

theorem mkdirAllFsAux_ok_of_chainClean :
    ∀ (fuel : Nat) (p : Path) (fs : Fs), p.length ≤ fuel → ChainClean fs p →
      ∃ g, mkdirAllFsAux fuel fs p = .ok g := by
  intro fuel
  induction fuel with
  | zero =>
    intro p fs hlen hcc
    cases p with
    | nil => exact ⟨fs, rfl⟩
    | cons a t => simp at hlen
  | succ fuel ih =>
    intro p fs hlen hcc
    cases p with
    | nil => exact ⟨fs, rfl⟩
    | cons a t =>
      simp only [mkdirAllFsAux]
      cases hlk : List.lookup (a :: t) fs with
      | some e =>
        have hdir : e = FsEntry.dir :=
          chainClean_lookup fs (a :: t) hcc (a :: t) (List.prefix_refl _) (by simp) e hlk
        subst hdir
        exact ⟨fs, rfl⟩
      | none =>
        have hcc2 : ChainClean fs (a :: t).dropLast :=
          chainClean_of_prefix fs (a :: t) _ hcc (List.dropLast_prefix _)
        have hlen2 : (a :: t).dropLast.length ≤ fuel := by
          rw [List.length_dropLast]
          simp only [List.length_cons] at hlen ⊢
          omega
        obtain ⟨g2, hg2⟩ := ih (a :: t).dropLast fs hlen2 hcc2
        rw [hg2]
        exact ⟨g2 ++ [(a :: t, FsEntry.dir)], rfl⟩

theorem mkdirAllFs_ok_of_chainClean (p : Path) (fs : Fs) (hcc : ChainClean fs p) :
    ∃ g, mkdirAllFs fs p = .ok g :=
  mkdirAllFsAux_ok_of_chainClean p.length p fs (Nat.le_refl _) hcc


/-!  ### Regions: everything a run adds lies in a detached subtree  -/

/-- A filesystem binding a run is allowed to add: its path is comparable
with some detached root in `C`, and a non-directory entry sits strictly
inside such a root's subtree. -/
def AddOk (C : List Path) (x : Path × FsEntry) : Prop :=
  (∃ r ∈ C, pathCmpB x.1 r = true) ∧
  (x.2 = FsEntry.dir ∨ ∃ r ∈ C, r <+: x.1 ∧ r ≠ x.1)

/-- `g` extends `fs` by appended bindings that are all `AddOk`. -/
def GoodAdds (C : List Path) (fs g : Fs) : Prop :=
  ∃ l, g = fs ++ l ∧ ∀ x ∈ l, AddOk C x

theorem goodAdds_refl (C : List Path) (fs : Fs) : GoodAdds C fs fs :=
  ⟨[], by simp, by simp⟩

theorem goodAdds_trans (C : List Path) (a b c : Fs) (h1 : GoodAdds C a b)
    (h2 : GoodAdds C b c) : GoodAdds C a c := by
  obtain ⟨l1, rfl, hl1⟩ := h1
  obtain ⟨l2, rfl, hl2⟩ := h2
  refine ⟨l1 ++ l2, by simp, ?_⟩
  intro x hx
  rcases List.mem_append.mp hx with h | h
  · exact hl1 x h
  · exact hl2 x h

/-- `s` roots a subtree disjoint from every detached subtree. -/
def SepFromAll (C : List Path) (s : Path) : Prop :=
  ∀ r ∈ C, pathCmpB s r = false

theorem lookup_stable (C : List Path) (fs g : Fs) (s : Path) (hG : GoodAdds C fs g)
    (hs : SepFromAll C s) : List.lookup s g = List.lookup s fs := by
  obtain ⟨l, rfl, hl⟩ := hG
  cases hlk : List.lookup s fs with
  | some v => rw [lookup_append_some _ _ _ _ hlk]
  | none =>
    rw [lookup_append_none _ _ _ hlk]
    refine lookup_none_of_ne l s ?_
    intro x hx hc
    obtain ⟨⟨r, hr, hcmp⟩, _⟩ := hl x hx
    rw [hc, hs r hr] at hcmp
    cases hcmp

theorem fsWalk_stable (C : List Path) (fs g : Fs) (s : Path) (hG : GoodAdds C fs g)
    (hs : SepFromAll C s) : fsWalk g s = fsWalk fs s := by
  obtain ⟨l, rfl, hl⟩ := hG
  unfold fsWalk
  rw [List.filter_append]
  have hnil : l.filter (fun e => s.isPrefixOf e.1) = [] := by
    rw [List.filter_eq_nil_iff]
    intro x hx hpre
    have hspre : s <+: x.1 := List.isPrefixOf_iff_prefix.1 hpre
    obtain ⟨⟨r, hr, hcmp⟩, _⟩ := hl x hx
    rcases (pathCmpB_iff _ _).1 hcmp with h1 | h1
    · have hsr := (pathCmpB_iff s r).2 (Or.inl (hspre.trans h1))
      rw [hs r hr] at hsr
      cases hsr
    · have hsr := pathCmpB_of_common s r x.1 hspre h1
      rw [hs r hr] at hsr
      cases hsr
  rw [hnil, List.append_nil]

theorem chainClean_stable (C : List Path) (fs g : Fs) (rk : Path)
    (hG : GoodAdds C fs g) (hcc : ChainClean fs rk) (_hrk : rk ∈ C)
    (hpairC : ∀ r ∈ C, r ≠ rk → pathCmpB r rk = false) :
    ChainClean g rk := by
  obtain ⟨l, rfl, hl⟩ := hG
  intro q hqi hne
  have hq : q <+: rk := by simpa [List.mem_inits] using hqi
  cases hlk : List.lookup q (fs ++ l) with
  | none => rfl
  | some e =>
    simp only [Option.getD_some]
    cases hfs : List.lookup q fs with
    | some e2 =>
      have h3 := lookup_append_some fs l q e2 hfs
      rw [hlk] at h3
      injection h3 with h3
      rw [h3]
      exact chainClean_lookup fs rk hcc q hq hne e2 hfs
    | none =>
      rw [lookup_append_none fs l q hfs] at hlk
      obtain ⟨⟨r, hr, hcmp⟩, hkind⟩ := hl (q, e) (lookup_some_mem l q e hlk)
      rcases hkind with hdir | ⟨r2, hr2, hr2pre, hr2ne⟩
      · exact hdir
      · exfalso
        have hr2q : r2 <+: q := hr2pre
        by_cases hEq : r2 = rk
        · subst hEq
          have hqeq : q = r2 := List.IsPrefix.eq_of_length hq
            (Nat.le_antisymm (List.IsPrefix.length_le hq) (List.IsPrefix.length_le hr2q))
          exact hr2ne (by rw [hqeq])
        · have hcmp2 := (pathCmpB_iff r2 rk).2 (Or.inl (hr2q.trans hq))
          rw [hpairC r2 hr2 hEq] at hcmp2
          cases hcmp2


/-!  ### Staged parts  -/

/-- The destination part directory exists, the chosen source part exists,
and every source entry is already mirrored: directories as directories,
files as present bindings.  The source data (the chosen part path and the
walk) is read from the base filesystem `fs`; the mirrored state is read
from `g`. -/
def StagedPart (fs g : Fs) (detachedParent : Path) (partName : String)
    (primary legacy : Path) : Prop :=
  List.lookup (detachedParent ++ [partName]) g = some FsEntry.dir ∧
  (List.lookup (if (List.lookup primary fs).isSome then primary else legacy) fs).isSome
    = true ∧
  ∀ e ∈ fsWalk fs (if (List.lookup primary fs).isSome then primary else legacy),
    (e.2 = FsEntry.dir →
      List.lookup ((detachedParent ++ [partName]) ++
        e.1.drop (if (List.lookup primary fs).isSome then primary else legacy).length) g =
        some FsEntry.dir) ∧
    (∀ i, e.2 = FsEntry.file i →
      (List.lookup ((detachedParent ++ [partName]) ++
        e.1.drop (if (List.lookup primary fs).isSome then primary else legacy).length)
        g).isSome = true)

theorem stagedPart_mono (fs g g2 : Fs) (dp : Path) (pn : String) (pr lg : Path)
    (l : Fs) (hg2 : g2 = g ++ l) (h : StagedPart fs g dp pn pr lg) :
    StagedPart fs g2 dp pn pr lg := by
  obtain ⟨h1, h2, h3⟩ := h
  subst hg2
  refine ⟨lookup_append_some _ _ _ _ h1, h2, ?_⟩
  intro e he
  obtain ⟨hd, hf⟩ := h3 e he
  constructor
  · intro hdir
    exact lookup_append_some _ _ _ _ (hd hdir)
  · intro i hfile
    exact lookup_isSome_append _ _ _ (hf i hfile)

theorem mkdirAllFs_append (fs : Fs) (p : Path) (g : Fs) (h : mkdirAllFs fs p = .ok g) :
    ∃ l, g = fs ++ l ∧ ∀ x ∈ l, x.1 ≠ [] ∧ x.1 <+: p ∧ x.2 = FsEntry.dir :=
  mkdirAllFsAux_append p.length fs p g h

theorem mkdirAllFs_lookup (fs : Fs) (p : Path) (g : Fs) (h : mkdirAllFs fs p = .ok g)
    (hne : p ≠ []) : List.lookup p g = some FsEntry.dir :=
  mkdirAllFsAux_lookup p.length fs p g h hne

theorem mkdirAllFs_fast (g : Fs) (p : Path) (h : List.lookup p g = some FsEntry.dir)
    (hne : p ≠ []) : mkdirAllFs g p = .ok g := by
  cases p with
  | nil => exact absurd rfl hne
  | cons a t =>
    unfold mkdirAllFs
    simp only [List.length_cons, mkdirAllFsAux, h]

/-!  ### Reduction equations for the walk fold  -/

theorem foldlM_ex_nil {α β ε : Type} (f : β → α → Except ε β) (b : β) :
    List.foldlM f b ([] : List α) = Except.ok b := rfl

theorem foldlM_ex_cons {α β ε : Type} (f : β → α → Except ε β) (b : β) (a : α)
    (l : List α) :
    List.foldlM f b (a :: l) = (f b a).bind (fun b2 => List.foldlM f b2 l) := rfl

theorem except_bind_ok {β γ ε : Type} (b : β) (g : β → Except ε γ) :
    (Except.ok b : Except ε β).bind g = g b := rfl

theorem except_bind_err {β γ ε : Type} (e : ε) (g : β → Except ε γ) :
    (Except.error e : Except ε β).bind g = Except.error e := rfl

theorem walkStep_dir (cp rk : Path) (g : Fs) (p : Path) :
    walkStep cp rk g (p, FsEntry.dir) =
      match mkdirAllFs g (rk ++ p.drop cp.length) with
      | .ok fs2 => Except.ok fs2
      | .error _ => Except.error "mkdir failed" := rfl

theorem walkStep_file (cp rk : Path) (g : Fs) (p : Path) (i : Nat) :
    walkStep cp rk g (p, FsEntry.file i) =
      match osLink g p (rk ++ p.drop cp.length) with
      | .ok fs2 => Except.ok fs2
      | .error LinkErr.exist => Except.ok g
      | .error LinkErr.other => Except.error "failed to create hard link" := rfl

theorem walkStep_special (cp rk : Path) (g : Fs) (p : Path) :
    walkStep cp rk g (p, FsEntry.special) = Except.ok g := rfl

/-!  ### `osLink` analysis  -/

theorem osLink_exist (fs : Fs) (src dst : Path)
    (h : osLink fs src dst = .error LinkErr.exist) :
    (List.lookup dst fs).isSome = true := by
  unfold osLink at h
  by_cases hex : (List.lookup dst fs).isSome = true
  · exact hex
  · exfalso
    rw [if_neg hex] at h
    cases hsrc : List.lookup src fs with
    | none => rw [hsrc] at h; cases h
    | some se =>
      rw [hsrc] at h
      cases se with
      | dir => cases h
      | special => cases h
      | file i =>
        have h2 : (if List.lookup dst.dropLast fs = some FsEntry.dir then
            (Except.ok (fs ++ [(dst, FsEntry.file i)]) : Except LinkErr Fs)
          else Except.error LinkErr.other) = Except.error LinkErr.exist := h
        by_cases hpar : List.lookup dst.dropLast fs = some FsEntry.dir
        · rw [if_pos hpar] at h2; cases h2
        · rw [if_neg hpar] at h2; cases h2

theorem osLink_ok (fs g : Fs) (src dst : Path) (h : osLink fs src dst = .ok g) :
    List.lookup dst fs = none ∧
    ∃ i, List.lookup src fs = some (FsEntry.file i) ∧
      List.lookup dst.dropLast fs = some FsEntry.dir ∧
      g = fs ++ [(dst, FsEntry.file i)] := by
  unfold osLink at h
  by_cases hex : (List.lookup dst fs).isSome = true
  · rw [if_pos hex] at h; cases h
  · rw [if_neg hex] at h
    have hnone : List.lookup dst fs = none := by
      cases hx : List.lookup dst fs with
      | none => rfl
      | some v => rw [hx] at hex; simp at hex
    cases hsrc : List.lookup src fs with
    | none => rw [hsrc] at h; cases h
    | some se =>
      rw [hsrc] at h
      cases se with
      | dir => cases h
      | special => cases h
      | file i =>
        have h2 : (if List.lookup dst.dropLast fs = some FsEntry.dir then
            (Except.ok (fs ++ [(dst, FsEntry.file i)]) : Except LinkErr Fs)
          else Except.error LinkErr.other) = Except.ok g := h
        by_cases hpar : List.lookup dst.dropLast fs = some FsEntry.dir
        · rw [if_pos hpar] at h2
          injection h2 with h3
          exact ⟨hnone, i, rfl, hpar, h3.symm⟩
        · rw [if_neg hpar] at h2; cases h2

theorem osLink_of_exists (fs : Fs) (src dst : Path)
    (h : (List.lookup dst fs).isSome = true) :
    osLink fs src dst = .error LinkErr.exist := by
  unfold osLink
  rw [if_pos h]

/-!  ### One walk step and one walk pass, first run  -/

theorem walkStep_run1 (C : List Path) (cp rk : Path) (hrk : rk ∈ C) (hrkne : rk ≠ [])
    (g g1 : Fs) (p : Path) (k : FsEntry)
    (hdir : List.lookup rk g = some FsEntry.dir)
    (hstep : walkStep cp rk g (p, k) = .ok g1) :
    GoodAdds C g g1 ∧ List.lookup rk g1 = some FsEntry.dir ∧
    (k = FsEntry.dir → List.lookup (rk ++ p.drop cp.length) g1 = some FsEntry.dir) ∧
    (∀ i, k = FsEntry.file i →
      (List.lookup (rk ++ p.drop cp.length) g1).isSome = true) := by
  cases k with
  | dir =>
    rw [walkStep_dir] at hstep
    cases hmk : mkdirAllFs g (rk ++ p.drop cp.length) with
    | error u => rw [hmk] at hstep; cases hstep
    | ok gm =>
      rw [hmk] at hstep
      injection hstep with hstep
      subst hstep
      obtain ⟨l, hl, hprop⟩ := mkdirAllFs_append g _ gm hmk
      have hga : GoodAdds C g gm := by
        refine ⟨l, hl, ?_⟩
        intro x hx
        obtain ⟨hne2, hpre2, hdir2⟩ := hprop x hx
        exact ⟨⟨rk, hrk, pathCmpB_of_common x.1 rk (rk ++ p.drop cp.length) hpre2
          (List.prefix_append rk _)⟩, Or.inl hdir2⟩
      refine ⟨hga, ?_, ?_, ?_⟩
      · rw [hl]
        exact lookup_append_some _ _ _ _ hdir
      · intro _
        refine mkdirAllFs_lookup g _ gm hmk ?_
        intro hc
        cases hrkc : rk with
        | nil => exact hrkne hrkc
        | cons a t => rw [hrkc] at hc; cases hc
      · intro i hfile
        cases hfile
  | file j =>
    rw [walkStep_file] at hstep
    cases hlink : osLink g p (rk ++ p.drop cp.length) with
    | ok gl =>
      rw [hlink] at hstep
      injection hstep with hstep
      subst hstep
      obtain ⟨hnone, i2, hsrc, hpar, hgl⟩ := osLink_ok g gl p _ hlink
      subst hgl
      have hdstne : rk ++ p.drop cp.length ≠ rk := by
        intro hc
        rw [hc, hdir] at hnone
        cases hnone
      refine ⟨?_, lookup_append_some _ _ _ _ hdir, ?_, ?_⟩
      · refine ⟨[(rk ++ p.drop cp.length, FsEntry.file i2)], rfl, ?_⟩
        intro x hx
        simp only [List.mem_singleton] at hx
        subst hx
        exact ⟨⟨rk, hrk, (pathCmpB_iff _ _).2 (Or.inr (List.prefix_append rk _))⟩,
          Or.inr ⟨rk, hrk, List.prefix_append rk _, fun hc => hdstne hc.symm⟩⟩
      · intro hde
        cases hde
      · intro i _
        rw [lookup_append_none _ _ _ hnone]
        simp [List.lookup]
    | error le =>
      rw [hlink] at hstep
      cases le with
      | other => cases hstep
      | exist =>
        injection hstep with hstep
        subst hstep
        refine ⟨goodAdds_refl C g, hdir, ?_, ?_⟩
        · intro hde
          cases hde
        · intro i _
          exact osLink_exist g p _ hlink
  | special =>
    rw [walkStep_special] at hstep
    injection hstep with hstep
    subst hstep
    refine ⟨goodAdds_refl C g, hdir, ?_, ?_⟩
    · intro hde
      cases hde
    · intro i hfile
      cases hfile

theorem walkFold_run1 (C : List Path) (cp rk : Path) (hrk : rk ∈ C) (hrkne : rk ≠ []) :
    ∀ (entries : List (Path × FsEntry)) (g g2 : Fs),
      List.lookup rk g = some FsEntry.dir →
      List.foldlM (walkStep cp rk) g entries = .ok g2 →
      GoodAdds C g g2 ∧ List.lookup rk g2 = some FsEntry.dir ∧
      ∀ e ∈ entries,
        (e.2 = FsEntry.dir →
          List.lookup (rk ++ e.1.drop cp.length) g2 = some FsEntry.dir) ∧
        (∀ i, e.2 = FsEntry.file i →
          (List.lookup (rk ++ e.1.drop cp.length) g2).isSome = true) := by
  intro entries
  induction entries with
  | nil =>
    intro g g2 hdir h
    rw [foldlM_ex_nil] at h
    injection h with h2
    subst h2
    exact ⟨goodAdds_refl C g, hdir, fun e he => absurd he (List.not_mem_nil e)⟩
  | cons e es ih =>
    intro g g2 hdir h
    rw [foldlM_ex_cons] at h
    cases hstep : walkStep cp rk g e with
    | error msg => rw [hstep, except_bind_err] at h; cases h
    | ok g1 =>
      rw [hstep, except_bind_ok] at h
      obtain ⟨p, k⟩ := e
      obtain ⟨hga1, hdir1, hpd, hpf⟩ := walkStep_run1 C cp rk hrk hrkne g g1 p k hdir hstep
      obtain ⟨hga2, hdir2, hposts⟩ := ih g1 g2 hdir1 h
      refine ⟨goodAdds_trans C g g1 g2 hga1 hga2, hdir2, ?_⟩
      intro e2 he2
      rcases List.mem_cons.mp he2 with rfl | hmem
      · obtain ⟨l2, hl2, _⟩ := hga2
        refine ⟨fun hde => ?_, fun i hfile => ?_⟩
        · rw [hl2]
          exact lookup_append_some _ _ _ _ (hpd hde)
        · rw [hl2]
          exact lookup_isSome_append _ _ _ (hpf i hfile)
      · exact hposts e2 hmem

/-!  ### One walk pass, second run  -/

theorem walkFold_run2 (cp rk : Path) (hrkne : rk ≠ []) :
    ∀ (entries : List (Path × FsEntry)) (g : Fs),
      (∀ e ∈ entries,
        (e.2 = FsEntry.dir →
          List.lookup (rk ++ e.1.drop cp.length) g = some FsEntry.dir) ∧
        (∀ i, e.2 = FsEntry.file i →
          (List.lookup (rk ++ e.1.drop cp.length) g).isSome = true)) →
      List.foldlM (walkStep cp rk) g entries = .ok g := by
  intro entries
  induction entries with
  | nil =>
    intro g _
    rfl
  | cons e es ih =>
    intro g hposts
    rw [foldlM_ex_cons]
    obtain ⟨hd, hf⟩ := hposts e (by simp)
    obtain ⟨p, k⟩ := e
    have hstep : walkStep cp rk g (p, k) = .ok g := by
      cases k with
      | dir =>
        have hdd := hd rfl
        have hdstne : rk ++ p.drop cp.length ≠ [] := by
          cases hrkc : rk with
          | nil => exact absurd hrkc hrkne
          | cons a t => simp
        rw [walkStep_dir, mkdirAllFs_fast g _ hdd hdstne]
      | file j =>
        rw [walkStep_file, osLink_of_exists g p _ (hf j rfl)]
      | special => exact walkStep_special cp rk g p
    rw [hstep, except_bind_ok]
    exact ih g (fun e2 he2 => hposts e2 (by simp [he2]))


/-!  ### `copyOnePart` decomposed: precheck then walk  -/

/-- The stat/`MkdirAll` precheck of `copyOnePart` (filesystemhelper.go lines
131-146), as a standalone function. -/
def precheck (fs : Fs) (detachedPath : Path) : Except String Fs :=
  match List.lookup detachedPath fs with
  | none =>
    match mkdirAllFs fs detachedPath with
    | .ok fs2 => Except.ok fs2
    | .error _ => Except.ok fs
  | some FsEntry.dir => Except.ok fs
  | some _ => Except.error ("\x27" ++ String.intercalate "/" detachedPath ++
      "\x27 should be directory or absent")

/-- The source-selection and walk phase of `copyOnePart` (filesystemhelper.go
lines 148-176), as a standalone function. -/
def copyWalk (fs1 : Fs) (detachedPath : Path) (partName : String)
    (srcPrimary srcLegacy : Path) : Except String Fs :=
  if (List.lookup (if (List.lookup srcPrimary fs1).isSome then srcPrimary else srcLegacy)
      fs1).isSome then
    match (fsWalk fs1
        (if (List.lookup srcPrimary fs1).isSome then srcPrimary else srcLegacy)).foldlM
        (walkStep (if (List.lookup srcPrimary fs1).isSome then srcPrimary else srcLegacy)
          detachedPath) fs1 with
    | .ok fs2 => Except.ok fs2
    | .error e => Except.error ("error during filepath.Walk for part \x27" ++ partName ++
        "\x27: " ++ e)
  else
    Except.error ("error during filepath.Walk for part \x27" ++ partName ++
      "\x27: walk root does not exist")

theorem copyOnePart_eq (fs : Fs) (dp : Path) (pn : String) (pr lg : Path) :
    copyOnePart fs dp pn pr lg =
      (precheck fs (dp ++ [pn])).bind (fun fs1 => copyWalk fs1 (dp ++ [pn]) pn pr lg) := by
  simp only [copyOnePart, precheck, copyWalk]
  cases List.lookup (dp ++ [pn]) fs with
  | none =>
    cases mkdirAllFs fs (dp ++ [pn]) with
    | ok g => rfl
    | error u => rfl
  | some e =>
    cases e with
    | dir => rfl
    | file i => rfl
    | special => rfl

theorem precheck_of_chainClean (C : List Path) (fs : Fs) (rk : Path) (hrk : rk ∈ C)
    (hrkne : rk ≠ []) (hcc : ChainClean fs rk) :
    ∃ fs1, precheck fs rk = .ok fs1 ∧ GoodAdds C fs fs1 ∧
      List.lookup rk fs1 = some FsEntry.dir := by
  cases hlk : List.lookup rk fs with
  | some e =>
    have hdir : e = FsEntry.dir :=
      chainClean_lookup fs rk hcc rk (List.prefix_refl _) hrkne e hlk
    subst hdir
    refine ⟨fs, ?_, goodAdds_refl C fs, hlk⟩
    unfold precheck
    rw [hlk]
  | none =>
    obtain ⟨g, hg⟩ := mkdirAllFs_ok_of_chainClean rk fs hcc
    refine ⟨g, ?_, ?_, mkdirAllFs_lookup fs rk g hg hrkne⟩
    · unfold precheck
      rw [hlk, hg]
    · obtain ⟨l, hl, hprop⟩ := mkdirAllFs_append fs rk g hg
      refine ⟨l, hl, ?_⟩
      intro x hx
      obtain ⟨hne2, hpre2, hdir2⟩ := hprop x hx
      exact ⟨⟨rk, hrk, (pathCmpB_iff _ _).2 (Or.inl hpre2)⟩, Or.inl hdir2⟩

theorem copyWalk_run1 (C : List Path) (fs fs1 fs2 : Fs) (rk : Path) (hrk : rk ∈ C)
    (hrkne : rk ≠ []) (pn : String) (pr lg : Path)
    (hga1 : GoodAdds C fs fs1)
    (hdir1 : List.lookup rk fs1 = some FsEntry.dir)
    (hsepP : SepFromAll C pr) (hsepL : SepFromAll C lg)
    (h : copyWalk fs1 rk pn pr lg = .ok fs2) :
    GoodAdds C fs fs2 ∧
    List.lookup rk fs2 = some FsEntry.dir ∧
    (List.lookup (if (List.lookup pr fs).isSome then pr else lg) fs).isSome = true ∧
    ∀ e ∈ fsWalk fs (if (List.lookup pr fs).isSome then pr else lg),
      (e.2 = FsEntry.dir →
        List.lookup (rk ++
          e.1.drop (if (List.lookup pr fs).isSome then pr else lg).length) fs2 =
          some FsEntry.dir) ∧
      (∀ i, e.2 = FsEntry.file i →
        (List.lookup (rk ++
          e.1.drop (if (List.lookup pr fs).isSome then pr else lg).length) fs2).isSome
          = true) := by
  have hprs : List.lookup pr fs1 = List.lookup pr fs := lookup_stable C fs fs1 pr hga1 hsepP
  have hsepC : SepFromAll C (if (List.lookup pr fs).isSome then pr else lg) := by
    by_cases hb : (List.lookup pr fs).isSome = true
    · rw [if_pos hb]
      exact hsepP
    · rw [if_neg hb]
      exact hsepL
  have hcps : List.lookup (if (List.lookup pr fs).isSome then pr else lg) fs1 =
      List.lookup (if (List.lookup pr fs).isSome then pr else lg) fs :=
    lookup_stable C fs fs1 _ hga1 hsepC
  have hwalkeq : fsWalk fs1 (if (List.lookup pr fs).isSome then pr else lg) =
      fsWalk fs (if (List.lookup pr fs).isSome then pr else lg) :=
    fsWalk_stable C fs fs1 _ hga1 hsepC
  unfold copyWalk at h
  rw [hprs, hcps, hwalkeq] at h
  by_cases hex : (List.lookup (if (List.lookup pr fs).isSome then pr else lg) fs).isSome
      = true
  · rw [if_pos hex] at h
    cases hfold : List.foldlM
        (walkStep (if (List.lookup pr fs).isSome then pr else lg) rk) fs1
        (fsWalk fs (if (List.lookup pr fs).isSome then pr else lg)) with
    | error e => rw [hfold] at h; cases h
    | ok g2 =>
      rw [hfold] at h
      injection h with h2
      subst h2
      obtain ⟨hga2, hdir2, hposts⟩ := walkFold_run1 C
        (if (List.lookup pr fs).isSome then pr else lg) rk hrk hrkne
        (fsWalk fs (if (List.lookup pr fs).isSome then pr else lg)) fs1 g2 hdir1 hfold
      exact ⟨goodAdds_trans C fs fs1 g2 hga1 hga2, hdir2, hex, hposts⟩
  · rw [if_neg hex] at h
    cases h

theorem copyOnePart_run1 (C : List Path) (fs fs2 : Fs) (dp : Path) (pn : String)
    (pr lg : Path) (hrk : dp ++ [pn] ∈ C) (hcc : ChainClean fs (dp ++ [pn]))
    (hsepP : SepFromAll C pr) (hsepL : SepFromAll C lg)
    (h : copyOnePart fs dp pn pr lg = .ok fs2) :
    GoodAdds C fs fs2 ∧ StagedPart fs fs2 dp pn pr lg := by
  have hrkne : dp ++ [pn] ≠ [] := by simp
  obtain ⟨fs1, hpc, hga1, hdir1⟩ := precheck_of_chainClean C fs (dp ++ [pn]) hrk hrkne hcc
  rw [copyOnePart_eq, hpc, except_bind_ok] at h
  obtain ⟨hga2, hdir2, hsome, hposts⟩ := copyWalk_run1 C fs fs1 fs2 (dp ++ [pn]) hrk
    hrkne pn pr lg hga1 hdir1 hsepP hsepL h
  exact ⟨hga2, hdir2, hsome, hposts⟩

/-- A staged part recorded against a source state `fs2` transfers to the
original source state `fs`, because the additions between them never touch
the separated source subtrees. -/
theorem stagedPart_transfer (C : List Path) (fs fs2 g : Fs) (dp : Path) (pn : String)
    (pr lg : Path) (hga : GoodAdds C fs fs2) (hsepP : SepFromAll C pr)
    (hsepL : SepFromAll C lg) (h : StagedPart fs2 g dp pn pr lg) :
    StagedPart fs g dp pn pr lg := by
  have hprs : List.lookup pr fs2 = List.lookup pr fs := lookup_stable C fs fs2 pr hga hsepP
  have hsepC : SepFromAll C (if (List.lookup pr fs).isSome then pr else lg) := by
    by_cases hb : (List.lookup pr fs).isSome = true
    · rw [if_pos hb]
      exact hsepP
    · rw [if_neg hb]
      exact hsepL
  have hcps : List.lookup (if (List.lookup pr fs).isSome then pr else lg) fs2 =
      List.lookup (if (List.lookup pr fs).isSome then pr else lg) fs :=
    lookup_stable C fs fs2 _ hga hsepC
  have hwalkeq : fsWalk fs2 (if (List.lookup pr fs).isSome then pr else lg) =
      fsWalk fs (if (List.lookup pr fs).isSome then pr else lg) :=
    fsWalk_stable C fs fs2 _ hga hsepC
  obtain ⟨h1, h2, h3⟩ := h
  rw [hprs] at h2 h3
  rw [hcps] at h2
  rw [hwalkeq] at h3
  exact ⟨h1, h2, h3⟩

theorem copyOnePart_run2 (C : List Path) (fs g : Fs) (dp : Path) (pn : String)
    (pr lg : Path) (hga : GoodAdds C fs g) (hsepP : SepFromAll C pr)
    (hsepL : SepFromAll C lg) (hsp : StagedPart fs g dp pn pr lg) :
    copyOnePart g dp pn pr lg = .ok g := by
  obtain ⟨h1, h2, h3⟩ := hsp
  have hrkne : dp ++ [pn] ≠ [] := by simp
  have hprs : List.lookup pr g = List.lookup pr fs := lookup_stable C fs g pr hga hsepP
  have hsepC : SepFromAll C (if (List.lookup pr fs).isSome then pr else lg) := by
    by_cases hb : (List.lookup pr fs).isSome = true
    · rw [if_pos hb]
      exact hsepP
    · rw [if_neg hb]
      exact hsepL
  have hcps : List.lookup (if (List.lookup pr fs).isSome then pr else lg) g =
      List.lookup (if (List.lookup pr fs).isSome then pr else lg) fs :=
    lookup_stable C fs g _ hga hsepC
  have hwalkeq : fsWalk g (if (List.lookup pr fs).isSome then pr else lg) =
      fsWalk fs (if (List.lookup pr fs).isSome then pr else lg) :=
    fsWalk_stable C fs g _ hga hsepC
  rw [copyOnePart_eq]
  have hpc : precheck g (dp ++ [pn]) = .ok g := by
    unfold precheck
    rw [h1]
  rw [hpc, except_bind_ok]
  unfold copyWalk
  rw [hprs, hcps, hwalkeq]
  rw [if_pos h2]
  rw [walkFold_run2 (if (List.lookup pr fs).isSome then pr else lg) (dp ++ [pn]) hrkne
    (fsWalk fs (if (List.lookup pr fs).isSome then pr else lg)) g h3]



/-!  ### `CopyDataToDetached` flattened over (disk, part) pairs  -/

theorem except_seq_eq_bind {β γ ε : Type} (m : Except ε β) (f : β → Except ε γ) :
    m >>= f = m.bind f := rfl

theorem except_bind_congr {β γ ε : Type} (m1 m2 : Except ε β) (f1 f2 : β → Except ε γ)
    (hm : m1 = m2) (hf : ∀ b, f1 b = f2 b) : m1.bind f1 = m2.bind f2 := by
  subst hm
  cases m1 with
  | error e => rfl
  | ok b => exact hf b

/-- The primary part source path (filesystemhelper.go line 148). -/
def partSrcPrimary (encode : String → String) (backupName : String)
    (table : TableMetadata) (d : Disk) (p : Part) : Path :=
  d.path ++ ["backup", backupName, "shadow", encode table.database, encode table.table,
    d.name, p.name]

/-- The legacy part source path without the disk-name segment
(filesystemhelper.go line 150). -/
def partSrcLegacy (encode : String → String) (backupName : String)
    (table : TableMetadata) (d : Disk) (p : Part) : Path :=
  d.path ++ ["backup", backupName, "shadow", encode table.database, encode table.table,
    p.name]

/-- The (disk, part) pairs `CopyDataToDetached` processes, in processing
order. -/
def quads (table : TableMetadata) (disks : List Disk) : List (Disk × Part) :=
  disks.flatMap (fun d => (partsOf table d.name).map (fun p => (d, p)))

/-- The detached part directories the run targets. -/
def detachedRoots (table : TableMetadata) (disks : List Disk)
    (dstDataPaths : String → Path) : List Path :=
  (quads table disks).map (fun q => dstDataPaths q.1.name ++ ["detached"] ++ [q.2.name])

/-- `CopyDataToDetached` is the flat fold of `copyOnePart` over the
(disk, part) pairs: the empty-parts guard is exactly the empty inner fold. -/
theorem CopyDataToDetached_eq (encode : String → String) (bn : String)
    (table : TableMetadata) (dstDataPaths : String → Path) :
    ∀ (disks : List Disk) (fs : Fs),
      CopyDataToDetached encode bn table disks dstDataPaths fs =
        List.foldlM (fun fs q =>
          copyOnePart fs (dstDataPaths (q : Disk × Part).1.name ++ ["detached"]) q.2.name
            (partSrcPrimary encode bn table q.1 q.2)
            (partSrcLegacy encode bn table q.1 q.2)) fs (quads table disks) := by
  intro disks
  induction disks with
  | nil =>
    intro fs
    rfl
  | cons d ds ih =>
    intro fs
    have hq : quads table (d :: ds) =
        (partsOf table d.name).map (fun p => (d, p)) ++ quads table ds := by
      unfold quads
      rw [List.flatMap_cons]
    rw [hq, List.foldlM_append, List.foldlM_map]
    unfold CopyDataToDetached
    rw [foldlM_ex_cons, except_seq_eq_bind]
    refine except_bind_congr _ _ _ _ ?_ ?_
    · show (if (partsOf table d.name).isEmpty then (Except.ok fs : Except String Fs)
        else List.foldlM (fun fs part =>
          copyOnePart fs (dstDataPaths d.name ++ ["detached"]) part.name
            (d.path ++ ["backup", bn, "shadow", encode table.database,
              encode table.table, d.name, part.name])
            (d.path ++ ["backup", bn, "shadow", encode table.database,
              encode table.table, part.name])) fs (partsOf table d.name)) = _
      by_cases hemp : (partsOf table d.name).isEmpty = true
      · rw [if_pos hemp, List.isEmpty_iff.mp hemp]
        rfl
      · rw [if_neg hemp]
        rfl
    · intro b
      exact ih b

/-!  ### Both passes over the flat pair list  -/

theorem quadFold_run1 (C : List Path) (fs0 : Fs) (dstDataPaths : String → Path)
    (encode : String → String) (bn : String) (table : TableMetadata)
    (hpairC : ∀ r1 ∈ C, ∀ r2 ∈ C, r1 ≠ r2 → pathCmpB r1 r2 = false)
    (hclean0 : ∀ r ∈ C, ChainClean fs0 r) :
    ∀ (Q : List (Disk × Part)) (g g2 : Fs),
      (∀ q ∈ Q, dstDataPaths (Prod.fst q).name ++ ["detached"] ++ [(Prod.snd q).name] ∈ C) →
      (∀ q ∈ Q, SepFromAll C (partSrcPrimary encode bn table q.1 q.2) ∧
        SepFromAll C (partSrcLegacy encode bn table q.1 q.2)) →
      GoodAdds C fs0 g →
      List.foldlM (fun fs q =>
        copyOnePart fs (dstDataPaths (q : Disk × Part).1.name ++ ["detached"]) q.2.name
          (partSrcPrimary encode bn table q.1 q.2)
          (partSrcLegacy encode bn table q.1 q.2)) g Q = .ok g2 →
      GoodAdds C g g2 ∧
      ∀ q ∈ Q, StagedPart fs0 g2 (dstDataPaths q.1.name ++ ["detached"]) q.2.name
        (partSrcPrimary encode bn table q.1 q.2)
        (partSrcLegacy encode bn table q.1 q.2) := by
  intro Q
  induction Q with
  | nil =>
    intro g g2 _ _ _ h
    rw [foldlM_ex_nil] at h
    injection h with h2
    subst h2
    exact ⟨goodAdds_refl C g, fun q hq => absurd hq (List.not_mem_nil q)⟩
  | cons q Q ih =>
    intro g g2 hrts hseps hga h
    have h2 : (copyOnePart g (dstDataPaths q.1.name ++ ["detached"]) q.2.name
        (partSrcPrimary encode bn table q.1 q.2)
        (partSrcLegacy encode bn table q.1 q.2)).bind
        (fun b2 => List.foldlM (fun fs q =>
          copyOnePart fs (dstDataPaths (q : Disk × Part).1.name ++ ["detached"]) q.2.name
            (partSrcPrimary encode bn table q.1 q.2)
            (partSrcLegacy encode bn table q.1 q.2)) b2 Q) = Except.ok g2 := h
    cases hstep : copyOnePart g (dstDataPaths q.1.name ++ ["detached"]) q.2.name
        (partSrcPrimary encode bn table q.1 q.2)
        (partSrcLegacy encode bn table q.1 q.2) with
    | error e =>
      rw [hstep, except_bind_err] at h2
      cases h2
    | ok g1 =>
      rw [hstep, except_bind_ok] at h2
      have hrk : dstDataPaths q.1.name ++ ["detached"] ++ [q.2.name] ∈ C :=
        hrts q (List.mem_cons_self q Q)
      have hcc : ChainClean g (dstDataPaths q.1.name ++ ["detached"] ++ [q.2.name]) :=
        chainClean_stable C fs0 g _ hga (hclean0 _ hrk) hrk
          (fun r hr hne => hpairC r hr _ hrk hne)
      obtain ⟨hsepP, hsepL⟩ := hseps q (List.mem_cons_self q Q)
      obtain ⟨hga1, hsp1⟩ := copyOnePart_run1 C g g1
        (dstDataPaths q.1.name ++ ["detached"]) q.2.name _ _ hrk hcc hsepP hsepL hstep
      have hsp0 : StagedPart fs0 g1 (dstDataPaths q.1.name ++ ["detached"]) q.2.name
          (partSrcPrimary encode bn table q.1 q.2)
          (partSrcLegacy encode bn table q.1 q.2) :=
        stagedPart_transfer C fs0 g g1 _ _ _ _ hga hsepP hsepL hsp1
      obtain ⟨hga2, hposts⟩ := ih g1 g2
        (fun q2 hq2 => hrts q2 (List.mem_cons_of_mem q hq2))
        (fun q2 hq2 => hseps q2 (List.mem_cons_of_mem q hq2))
        (goodAdds_trans C fs0 g g1 hga hga1) h2
      refine ⟨goodAdds_trans C g g1 g2 hga1 hga2, ?_⟩
      intro q2 hq2
      rcases List.mem_cons.mp hq2 with rfl | hmem
      · obtain ⟨l2, hl2, _⟩ := hga2
        exact stagedPart_mono fs0 g1 g2 _ _ _ _ l2 hl2 hsp0
      · exact hposts q2 hmem

theorem quadFold_run2 (C : List Path) (fs0 : Fs) (dstDataPaths : String → Path)
    (encode : String → String) (bn : String) (table : TableMetadata) :
    ∀ (Q : List (Disk × Part)) (g : Fs),
      (∀ q ∈ Q, SepFromAll C (partSrcPrimary encode bn table q.1 q.2) ∧
        SepFromAll C (partSrcLegacy encode bn table q.1 q.2)) →
      GoodAdds C fs0 g →
      (∀ q ∈ Q, StagedPart fs0 g (dstDataPaths q.1.name ++ ["detached"]) q.2.name
        (partSrcPrimary encode bn table q.1 q.2)
        (partSrcLegacy encode bn table q.1 q.2)) →
      List.foldlM (fun fs q =>
        copyOnePart fs (dstDataPaths (q : Disk × Part).1.name ++ ["detached"]) q.2.name
          (partSrcPrimary encode bn table q.1 q.2)
          (partSrcLegacy encode bn table q.1 q.2)) g Q = .ok g := by
  intro Q
  induction Q with
  | nil =>
    intro g _ _ _
    rfl
  | cons q Q ih =>
    intro g hseps hga hsps
    obtain ⟨hsepP, hsepL⟩ := hseps q (List.mem_cons_self q Q)
    have hstep : copyOnePart g (dstDataPaths q.1.name ++ ["detached"]) q.2.name
        (partSrcPrimary encode bn table q.1 q.2)
        (partSrcLegacy encode bn table q.1 q.2) = .ok g :=
      copyOnePart_run2 C fs0 g _ _ _ _ hga hsepP hsepL
        (hsps q (List.mem_cons_self q Q))
    show (copyOnePart g (dstDataPaths q.1.name ++ ["detached"]) q.2.name
        (partSrcPrimary encode bn table q.1 q.2)
        (partSrcLegacy encode bn table q.1 q.2)).bind
        (fun b2 => List.foldlM (fun fs q =>
          copyOnePart fs (dstDataPaths (q : Disk × Part).1.name ++ ["detached"]) q.2.name
            (partSrcPrimary encode bn table q.1 q.2)
            (partSrcLegacy encode bn table q.1 q.2)) b2 Q) = Except.ok g
    rw [hstep, except_bind_ok]
    exact ih g (fun q2 hq2 => hseps q2 (List.mem_cons_of_mem q hq2)) hga
      (fun q2 hq2 => hsps q2 (List.mem_cons_of_mem q hq2))



/-!  ### C6: idempotence of data placement  -/

/-- C6: data placement is idempotent.  With the detached part directories
pairwise disjoint, the backup shadow sources disjoint from every detached
directory, and every detached ancestor chain free of non-directory entries,
a successful `CopyDataToDetached` run produces a state on which a second
run returns exactly the same state with no error: the second run's
`MkdirAll` calls find the directories already present, and every hard-link
attempt fails with the already-exists error, which the walk callback
(filesystemhelper.go lines 152-175) swallows as non-fatal, so no
destination file is duplicated or replaced. -/
theorem c6_CopyDataToDetached_idempotent (encode : String → String) (bn : String)
    (table : TableMetadata) (disks : List Disk) (dstDataPaths : String → Path)
    (fs fs2 : Fs)
    (hpair : ∀ r1 ∈ detachedRoots table disks dstDataPaths,
      ∀ r2 ∈ detachedRoots table disks dstDataPaths, r1 ≠ r2 → pathCmpB r1 r2 = false)
    (hsep : ∀ q ∈ quads table disks,
      SepFromAll (detachedRoots table disks dstDataPaths)
        (partSrcPrimary encode bn table q.1 q.2) ∧
      SepFromAll (detachedRoots table disks dstDataPaths)
        (partSrcLegacy encode bn table q.1 q.2))
    (hclean : ∀ r ∈ detachedRoots table disks dstDataPaths, ChainClean fs r)
    (h : CopyDataToDetached encode bn table disks dstDataPaths fs = .ok fs2) :
    CopyDataToDetached encode bn table disks dstDataPaths fs2 = .ok fs2 := by
  have hQ : ∀ q ∈ quads table disks,
      dstDataPaths (Prod.fst q).name ++ ["detached"] ++ [(Prod.snd q).name] ∈
        detachedRoots table disks dstDataPaths :=
    fun q hq => List.mem_map.2 ⟨q, hq, rfl⟩
  rw [CopyDataToDetached_eq] at h
  obtain ⟨hga, hposts⟩ := quadFold_run1 (detachedRoots table disks dstDataPaths) fs
    dstDataPaths encode bn table hpair hclean (quads table disks) fs fs2 hQ hsep
    (goodAdds_refl _ fs) h
  rw [CopyDataToDetached_eq]
  exact quadFold_run2 (detachedRoots table disks dstDataPaths) fs dstDataPaths encode
    bn table (quads table disks) fs2 hsep hga hposts

/-- A concrete table with one part on one disk, for the C6 witness. -/
def c6Table : TableMetadata :=
  { database := "d", table := "t", query := "CREATE TABLE d.t (x Int64) ENGINE=MergeTree",
    parts := [("disk1", [{ name := "p1" }])] }

def c6Disks : List Disk :=
  [{ name := "disk1", path := ["srv"], type := "local" }]

/-- A source filesystem holding the staged shadow copy of part `p1`: its
directory and one data file. -/
def c6Fs : Fs :=
  [(["srv", "backup", "b", "shadow", "d", "t", "disk1", "p1"], FsEntry.dir),
   (["srv", "backup", "b", "shadow", "d", "t", "disk1", "p1", "x.bin"], FsEntry.file 7)]

/-- The state after the first `CopyDataToDetached` run on `c6Fs`. -/
def c6Fs2 : Fs :=
  c6Fs ++ [(["data"], FsEntry.dir), (["data", "detached"], FsEntry.dir),
    (["data", "detached", "p1"], FsEntry.dir),
    (["data", "detached", "p1", "x.bin"], FsEntry.file 7)]

theorem c6_witness :
    CopyDataToDetached (fun s => s) "b" c6Table c6Disks (fun _ => ["data"]) c6Fs =
      .ok c6Fs2 ∧
    CopyDataToDetached (fun s => s) "b" c6Table c6Disks (fun _ => ["data"]) c6Fs2 =
      .ok c6Fs2 := by
  refine ⟨by decide, c6_CopyDataToDetached_idempotent (fun s => s) "b" c6Table c6Disks
    (fun _ => ["data"]) c6Fs c6Fs2 ?_ ?_ ?_ (by decide)⟩
  · decide
  · simp only [SepFromAll]
    decide
  · simp only [ChainClean]
    decide


/-!  ## Database mapping (restore.go lines 192-204)  -/

/-- Inner loop of `prepareRestoreDatabaseMapping` (restore.go lines 195-201):
each comma-separated piece must split on `:` into exactly two fields, which are
then assigned into the mapping; the first malformed piece aborts with the
error of restore.go line 198. -/
def registerMappingPieces (m : List (String × String)) :
    List String → Except String (List (String × String))
  | [] => .ok m
  | piece :: pieces =>
    match goSplit piece ':' with
    | [src, dst] => registerMappingPieces (mapPut m src dst) pieces
    | _ => .error ("restore-database-mapping " ++ piece ++
        " should only have srcDatabase:destinationDatabase format for each map rule")

/-- `prepareRestoreDatabaseMapping`, translated from restore.go lines 192-204:
each argument of `databaseMapping` is split on commas and its pieces are
registered by `registerMappingPieces`; `m0` is the pre-existing
`RestoreDatabaseMapping` map (empty in practice). -/
def prepareRestoreDatabaseMapping (m0 : List (String × String)) :
    List String → Except String (List (String × String))
  | [] => .ok m0
  | arg :: rest => do
    let m ← registerMappingPieces m0 (goSplit arg ',')
    prepareRestoreDatabaseMapping m rest

/-!  ## Helper lemmas for the database mapping  -/

@[simp]
theorem exceptBind_ok {ε α β : Type} (a : α) (f : α → Except ε β) :
    (Except.ok a : Except ε α) >>= f = f a := rfl

@[simp]
theorem exceptBind_error {ε α β : Type} (e : ε) (f : α → Except ε β) :
    (Except.error e : Except ε α) >>= f = Except.error e := rfl

theorem registerMappingPieces_isOk_iff (ps : List String) (m : List (String × String)) :
    (registerMappingPieces m ps).isOk = true ↔
      ∀ p ∈ ps, ((goSplit p ':').length = 2) := by
  induction ps generalizing m with
  | nil => simp [registerMappingPieces]
  | cons p ps ih =>
    simp only [registerMappingPieces]
    cases h : goSplit p ':' with
    | nil => simp [h]
    | cons a t =>
      cases t with
      | nil => simp [h]
      | cons b t2 =>
        cases t2 with
        | nil =>
          rw [ih]
          simp [h, List.forall_mem_cons]
        | cons c t3 => simp [h]

theorem registerMappingPieces_lookup_mono (ps : List String)
    (m m' : List (String × String)) (h : registerMappingPieces m ps = .ok m')
    (k : String) (hk : (List.lookup k m).isSome = true) :
    (List.lookup k m').isSome = true := by
  induction ps generalizing m with
  | nil =>
    simp only [registerMappingPieces] at h
    cases h
    exact hk
  | cons p ps ih =>
    simp only [registerMappingPieces] at h
    cases hs : goSplit p ':' with
    | nil => simp [hs] at h
    | cons a t =>
      cases t with
      | nil => simp [hs] at h
      | cons b t2 =>
        cases t2 with
        | nil =>
          simp only [hs] at h
          exact ih (mapPut m a b) h (lookup_mapPut_isSome m a k b hk)
        | cons c t3 => simp [hs] at h

theorem registerMappingPieces_registers (ps : List String)
    (m m' : List (String × String)) (h : registerMappingPieces m ps = .ok m')
    (p : String) (hp : p ∈ ps) (s d : String) (hsd : goSplit p ':' = [s, d]) :
    (List.lookup s m').isSome = true := by
  induction ps generalizing m with
  | nil => cases hp
  | cons q ps ih =>
    simp only [registerMappingPieces] at h
    rcases List.mem_cons.mp hp with rfl | hp'
    · simp only [hsd] at h
      refine registerMappingPieces_lookup_mono ps _ _ h s ?_
      simp [lookup_mapPut_self]
    · cases hs : goSplit q ':' with
      | nil => simp [hs] at h
      | cons a t =>
        cases t with
        | nil => simp [hs] at h
        | cons b t2 =>
          cases t2 with
          | nil =>
            simp only [hs] at h
            exact ih (mapPut m a b) h hp'
          | cons c t3 => simp [hs] at h

theorem prepareRestoreDatabaseMapping_isOk_iff (args : List String)
    (m0 : List (String × String)) :
    (prepareRestoreDatabaseMapping m0 args).isOk = true ↔
      ∀ arg ∈ args, ∀ piece ∈ goSplit arg ',', ((goSplit piece ':').length = 2) := by
  induction args generalizing m0 with
  | nil => simp [prepareRestoreDatabaseMapping]
  | cons arg rest ih =>
    simp only [prepareRestoreDatabaseMapping]
    cases hreg : registerMappingPieces m0 (goSplit arg ',') with
    | error e =>
      have hbad : ¬ ∀ p ∈ goSplit arg ',', ((goSplit p ':').length = 2) := by
        intro hall
        have := (registerMappingPieces_isOk_iff (goSplit arg ',') m0).2 hall
        rw [hreg] at this
        simp at this
      simp only [exceptBind_error, isOk_error, List.forall_mem_cons]
      constructor
      · intro hc
        cases hc
      · intro hall
        exact absurd hall.1 hbad
    | ok m1 =>
      have hgood : ∀ p ∈ goSplit arg ',', ((goSplit p ':').length = 2) := by
        have := (registerMappingPieces_isOk_iff (goSplit arg ',') m0).1
        rw [hreg] at this
        exact this rfl
      simp only [exceptBind_ok]
      rw [ih m1]
      simp only [List.forall_mem_cons]
      constructor
      · intro hall
        exact ⟨hgood, hall⟩
      · intro hall
        exact hall.2

theorem prepareRestoreDatabaseMapping_lookup_mono (args : List String)
    (m0 mf : List (String × String))
    (h : prepareRestoreDatabaseMapping m0 args = .ok mf) (k : String)
    (hk : (List.lookup k m0).isSome = true) : (List.lookup k mf).isSome = true := by
  induction args generalizing m0 with
  | nil =>
    simp only [prepareRestoreDatabaseMapping] at h
    cases h
    exact hk
  | cons arg rest ih =>
    simp only [prepareRestoreDatabaseMapping] at h
    cases hreg : registerMappingPieces m0 (goSplit arg ',') with
    | error e => simp [hreg] at h
    | ok m1 =>
      simp only [hreg, exceptBind_ok] at h
      exact ih m1 h (registerMappingPieces_lookup_mono _ m0 m1 hreg k hk)

/-!  ## Claim C3  -/

/-- C3 counterexample: the claim says a pair that does not split into exactly
two NON-EMPTY names is rejected, but `prepareRestoreDatabaseMapping` performs
no emptiness check: the argument `"a:"` (destination name empty) is accepted
and registered as the mapping `a ↦ ""` instead of producing an error. -/
theorem c3_counterexample :
    prepareRestoreDatabaseMapping [] ["a:"] = .ok [("a", "")] := rfl

/-- C3 (amended): `prepareRestoreDatabaseMapping` accepts repeated
`source:destination` pair declarations split on commas and colons, and returns
an error exactly when some piece does not split on `:` into exactly two fields
(the fields may be empty — non-emptiness of the names is not checked); on
success every accepted pair's source name is registered in the mapping. -/
theorem c3_prepareRestoreDatabaseMapping_amended (args : List String)
    (m0 : List (String × String)) :
    ((prepareRestoreDatabaseMapping m0 args).isOk = true ↔
      ∀ arg ∈ args, ∀ piece ∈ goSplit arg ',', ((goSplit piece ':').length = 2)) ∧
    (∀ mf, prepareRestoreDatabaseMapping m0 args = .ok mf →
      ∀ arg ∈ args, ∀ piece ∈ goSplit arg ',', ∀ s d, goSplit piece ':' = [s, d] →
        (List.lookup s mf).isSome = true) := by
  refine ⟨prepareRestoreDatabaseMapping_isOk_iff args m0, ?_⟩
  intro mf h arg harg piece hpiece s d hsd
  induction args generalizing m0 with
  | nil => cases harg
  | cons a rest ih =>
    simp only [prepareRestoreDatabaseMapping] at h
    cases hreg : registerMappingPieces m0 (goSplit a ',') with
    | error e => simp [hreg] at h
    | ok m1 =>
      simp only [hreg, exceptBind_ok] at h
      rcases List.mem_cons.mp harg with rfl | harg'
      · exact prepareRestoreDatabaseMapping_lookup_mono rest m1 mf h s
          (registerMappingPieces_registers _ m0 m1 hreg piece hpiece s d hsd)
      · exact ih m1 h harg'

/-- C3 witness: `["db1:db2,x:y"]` is accepted; by the amended theorem the
source `"x"` of the second comma-separated pair is registered. -/
theorem c3_amended_witness :
    prepareRestoreDatabaseMapping [] ["db1:db2,x:y"] = .ok [("x", "y"), ("db1", "db2")] ∧
    (List.lookup "x" [("x", "y"), ("db1", "db2")]).isSome = true := by
  refine ⟨rfl, ?_⟩
  exact (c3_prepareRestoreDatabaseMapping_amended ["db1:db2,x:y"] []).2 _ rfl
    "db1:db2,x:y" (by decide) "x:y" (by decide) "x" "y" (by decide)

/-!  ## Claim C9  -/

/-- C9: calling `Restore` with both `schemaOnly = true` and `dataOnly = true`
(and `rbacOnly`/`configsOnly` false) executes both the schema-restore phase and
the data-restore phase, exactly as in the neither-flag case; the flags are not
mutually exclusive and the combination produces no error path — the phase
selector yields `[schema, data]` for both combinations (embedded and regular
mode alike), and `doRestoreData` agrees between the two cases. -/
theorem c9_restorePhases_both_flags :
    restorePhases true true false false false = [.schema, .data] ∧
    restorePhases false false false false false = [.schema, .data] ∧
    restorePhases true true false false true = [.schema, .data] ∧
    restorePhases false false false false true = [.schema, .data] ∧
    doRestoreData true true = doRestoreData false false ∧
    doRestoreData true true = true := by
  refine ⟨rfl, rfl, rfl, rfl, rfl, rfl⟩

end ClickhouseBackup
